import Mathlib

/-!
Verification development for the CT Review Tool repository
(`core_functionality.py`, `app.py`).

The Python source is shallowly embedded: paragraphs become a `Para`
structure, the section extractors become pure folds, the comment
injector's string/XML edits become pure functions on strings and a
parts map, and its control flow (try/except around filesystem
operations) becomes a small step machine over an abstract filesystem
state.  All machine strings are modelled as Lean `String`s; Python
`str.strip` is modelled by `pyStrip`, `str.lower` by
`pyLower`, `str.isupper` by an ASCII-cased model, and Python
dict insertion (insertion ordered, overwrite in place) by `dictInsert`
on association lists.
-/

set_option maxRecDepth 100000

namespace CTReview

/-- Number of occurrences of `n` (as a contiguous sublist) in `h`,
counted at every start position.  Used to state facts about the raw
XML text produced by the comment injector. -/
def occ (n : List Char) : List Char → Nat
  | [] => 0
  | c :: rest => (if n.isPrefixOf (c :: rest) then 1 else 0) + occ n rest

/-- Python `needle in hay` substring test. -/
def containsSub (hay needle : String) : Bool :=
  decide (needle.data <:+: hay.data)

/-- Python `str.replace` (replace every non-overlapping occurrence,
scanning left to right), on character lists.  An empty needle is
treated as a no-op so the recursion terminates (the source never
replaces an empty needle). -/
def replaceList (n r : List Char) (h : List Char) : List Char :=
  if _hn : n = [] then h
  else
    match h with
    | [] => []
    | c :: rest =>
      if n.isPrefixOf (c :: rest) then
        r ++ replaceList n r (rest.drop (n.length - 1))
      else
        c :: replaceList n r rest
termination_by h.length
decreasing_by
  · simp only [List.length_cons, List.length_drop]
    omega
  · simp only [List.length_cons]
    omega

/-- Python `str.replace` on strings. -/
def pyReplace (s needle repl : String) : String :=
  ⟨replaceList needle.data repl.data s.data⟩

/-- Python `'\n'.join`-style join: empty for the empty list, otherwise
the head followed by separator-prefixed elements. -/
def pyJoin (sep : String) : List String → String
  | [] => ""
  | x :: xs => xs.foldl (fun acc y => acc ++ sep ++ y) x

/-- Python `str.rstrip(':')`: remove every trailing colon. -/
def rstripColon (s : String) : String :=
  ⟨(s.data.reverse.dropWhile (· == ':')).reverse⟩

/-- A character is cased in the ASCII model iff it is a letter. -/
def isCasedChar (c : Char) : Bool := c.isAlpha

/-- Python `str.isupper` (ASCII model): at least one cased character
and no cased character is lowercase. -/
def pyIsUpper (s : String) : Bool :=
  s.data.any isCasedChar && s.data.all (fun c => !isCasedChar c || c.isUpper)

/-- Python `str.strip()`: drop leading and trailing whitespace
(modelled character-wise so it evaluates by kernel reduction). -/
def pyStrip (s : String) : String :=
  ⟨((s.data.dropWhile Char.isWhitespace).reverse.dropWhile Char.isWhitespace).reverse⟩

/-- Python `str.lower()` (ASCII model). -/
def pyLower (s : String) : String :=
  ⟨s.data.map Char.toLower⟩

/-- Python `str.upper()` (ASCII model). -/
def pyUpperStr (s : String) : String :=
  ⟨s.data.map Char.toUpper⟩

/-- Python `str.endswith(':')`. -/
def pyEndsWithColon (s : String) : Bool :=
  s.data.getLast? == some ':'

/-- Python dict insertion on an insertion-ordered association list:
overwrite in place if the key is present, else append at the end. -/
def dictInsert {α : Type} (d : List (String × α)) (k : String) (v : α) :
    List (String × α) :=
  if d.any (fun kv => kv.1 = k) then
    d.map (fun kv => if kv.1 = k then (k, v) else kv)
  else
    d ++ [(k, v)]

/-- Python dict lookup on the association-list model. -/
def dictGet {α : Type} (d : List (String × α)) (k : String) : Option α :=
  (d.find? (fun kv => kv.1 = k)).map (fun kv => kv.2)

/-- One run inside a paragraph; only its bold flag matters to the
extractors (`run.bold` truthiness in the source). -/
structure ParaRun where
  bold : Bool
deriving DecidableEq, Repr

/-- One paragraph-level block: its runs and its raw text
(`para.runs`, `para.text` in the source). -/
structure Para where
  runs : List ParaRun
  text : String
deriving DecidableEq, Repr

/-- The `STANDARD_SECTIONS` list of `core_functionality.py`. -/
def STANDARD_SECTIONS : List String :=
  ["Executive Summary", "Background", "Resolving Actions", "Root Cause",
   "Preventative Actions", "Investigation Process", "Seller Classification",
   "Documentation and Reporting", "Impact Assessment", "Timeline",
   "Recommendations"]

/-- The `EXCLUDED_SECTIONS` list of `core_functionality.py`. -/
def EXCLUDED_SECTIONS : List String :=
  ["Original Email", "Email Correspondence", "Raw Data", "Logs", "Attachments"]

/-- Bold-majority test of `extract_document_sections_from_docx`
(`core_functionality.py` lines 263-267): a paragraph with runs is bold
iff strictly more than half of its runs are bold; a paragraph with no
runs is never bold. -/
def paraIsBold (p : Para) : Bool :=
  if p.runs.isEmpty then false
  else decide (2 * p.runs.countP (fun r => r.bold) > p.runs.length)

/-- Name-based exclusion test of `extract_document_sections_from_docx`
(lines 283-287/305-309): the current section name case-insensitively
contains one of the excluded fragments. -/
def isExcludedName (name : String) : Bool :=
  EXCLUDED_SECTIONS.any (fun ex => containsSub (pyLower name) (pyLower ex))

/-- Header test of `extract_document_sections_from_docx` (lines
269-279): a bold paragraph with non-empty stripped text shorter than
100 characters is a header iff its text case-insensitively contains a
standard section name, or (failing that) ends with a colon or is
entirely upper-case. -/
def isSectionHeaderCore (p : Para) : Bool :=
  let text := pyStrip p.text
  if paraIsBold p && !(text = "") && decide (text.length < 100) then
    if STANDARD_SECTIONS.any (fun std => containsSub (pyLower text) (pyLower std)) then
      true
    else
      pyEndsWithColon text || pyIsUpper text
  else
    false

/-- Result triple of `extract_document_sections_from_docx`:
`sections`, `section_paragraphs`, `paragraph_indices`, each an
insertion-ordered dict. -/
structure ExtractOut where
  sections : List (String × String)
  section_paragraphs : List (String × List Para)
  paragraph_indices : List (String × List Nat)
deriving DecidableEq, Repr

/-- Loop state of `extract_document_sections_from_docx`: the three
dicts plus `current_section`, `current_content`, `current_paragraphs`,
`current_indices`. -/
structure ExtractState where
  out : ExtractOut
  current_section : Option String
  current_content : List String
  current_paragraphs : List Para
  current_indices : List Nat
deriving DecidableEq, Repr

/-- The store-current-section block of `extract_document_sections_from_docx`
(lines 282-292, repeated at 304-314): if `current_section` is truthy
(non-`None` and non-empty) and `current_content` is non-empty, store
the accumulated content under the current name unless the name matches
an excluded fragment. -/
def closeCurrent (st : ExtractState) : ExtractOut :=
  match st.current_section with
  | none => st.out
  | some name =>
    if name = "" then st.out
    else if st.current_content = [] then st.out
    else if isExcludedName name then st.out
    else
      { sections := dictInsert st.out.sections name (pyJoin "\n" st.current_content)
        section_paragraphs := dictInsert st.out.section_paragraphs name st.current_paragraphs
        paragraph_indices := dictInsert st.out.paragraph_indices name st.current_indices }

/-- One iteration of the main loop of
`extract_document_sections_from_docx` (lines 262-302) over an
`(index, paragraph)` pair. -/
def extractStep (st : ExtractState) (ip : Nat × Para) : ExtractState :=
  let text := pyStrip ip.2.text
  if isSectionHeaderCore ip.2 then
    { out := closeCurrent st
      current_section := some (rstripColon text)
      current_content := []
      current_paragraphs := []
      current_indices := [] }
  else if text = "" then st
  else
    { st with
      current_content := st.current_content ++ [text]
      current_paragraphs := st.current_paragraphs ++ [ip.2]
      current_indices := st.current_indices ++ [ip.1] }

/-- The header-driven pass of `extract_document_sections_from_docx`:
the main loop followed by the final close (lines 262-314), before the
`Main Content` fallback is considered. -/
def passOut (paras : List Para) : ExtractOut :=
  closeCurrent (paras.enum.foldl extractStep
    ⟨⟨[], [], []⟩, none, [], [], []⟩)

/-- The `Main Content` fallback of `extract_document_sections_from_docx`
(lines 316-327): one section holding the raw text of every paragraph
whose stripped text is non-empty, in order. -/
def fallbackOut (paras : List Para) : ExtractOut :=
  { sections := [("Main Content",
      pyJoin "\n" ((paras.filter (fun p => !(pyStrip p.text = ""))).map (fun p => p.text)))]
    section_paragraphs := [("Main Content",
      paras.filter (fun p => !(pyStrip p.text = "")))]
    paragraph_indices := [("Main Content",
      (paras.enum.filter (fun ip => !(pyStrip ip.2.text = ""))).map (fun ip => ip.1))] }

/-- `extract_document_sections_from_docx` (`core_functionality.py`
lines 252-329): the header-driven pass, replaced wholesale by the
`Main Content` fallback when the pass stored no section. -/
def extract_document_sections_from_docx (paras : List Para) : ExtractOut :=
  if (passOut paras).sections = [] then fallbackOut paras else passOut paras

/-- Bold-and-short test of `extract_sections` in `app.py` (lines
23-26): the paragraph has runs, its stripped text is shorter than 100
characters, and strictly more than half of its runs are bold. -/
def appIsBoldShort (p : Para) : Bool :=
  if p.runs.isEmpty then false
  else if decide ((pyStrip p.text).length < 100) then
    decide (2 * p.runs.countP (fun r => r.bold) > p.runs.length)
  else false

/-- Full header decision of `extract_sections` in `app.py` (line 28):
bold-and-short, and the text ends with a colon or is upper-case. -/
def appIsHeader (p : Para) : Bool :=
  appIsBoldShort p && (pyEndsWithColon (pyStrip p.text) || pyIsUpper (pyStrip p.text))

/-- Loop state of `extract_sections` in `app.py`: the sections dict,
`current_section` (initially `"Main Content"`) and the accumulated
content lines. -/
structure AppState where
  sections : List (String × String)
  current_section : String
  content : List String
deriving DecidableEq, Repr

/-- One iteration of the loop of `extract_sections` in `app.py`
(lines 19-34); paragraphs with empty stripped text are skipped
entirely. -/
def appStep (st : AppState) (p : Para) : AppState :=
  let text := pyStrip p.text
  if text = "" then st
  else if appIsHeader p then
    { sections :=
        if st.content = [] then st.sections
        else dictInsert st.sections st.current_section (pyJoin "\n" st.content)
      current_section := rstripColon text
      content := [] }
  else
    { st with content := st.content ++ [text] }

/-- Final flush of `extract_sections` in `app.py` (lines 36-37):
store any remaining content under the current section name. -/
def appFinal (st : AppState) : List (String × String) :=
  if st.content = [] then st.sections
  else dictInsert st.sections st.current_section (pyJoin "\n" st.content)

/-- `extract_sections` from `app.py` (lines 14-39). -/
def extract_sections (paras : List Para) : List (String × String) :=
  appFinal (paras.foldl appStep ⟨[], "Main Content", []⟩)

/-- One entry of the `comments_data` list consumed by
`create_simple_reviewed_copy`: `sectionName` models
`comment['section']`, `ctype` models `comment['type']`, the rest are
named as in the source. -/
structure CommentData where
  sectionName : String
  ctype : String
  risk_level : String
  comment : String
  author : Option String
deriving DecidableEq, Repr

/-- Abstract view of a python-docx document as the ordered list of
elements appended to it: page breaks, headings (text and level),
plain paragraphs, and bulleted paragraphs made of a bold run followed
by a plain run. -/
inductive DocElem where
  | pageBreak : DocElem
  | heading : String → Nat → DocElem
  | para : String → DocElem
  | bulletPara : String → String → DocElem
deriving DecidableEq, Repr

/-- One step of the `defaultdict(list)` grouping of
`create_simple_reviewed_copy` (lines 599-601): append the comment to
its section's list, creating the section at the end on first
appearance. -/
def groupStep (acc : List (String × List CommentData)) (c : CommentData) :
    List (String × List CommentData) :=
  if acc.any (fun g => g.1 = c.sectionName) then
    acc.map (fun g => if g.1 = c.sectionName then (g.1, g.2 ++ [c]) else g)
  else acc ++ [(c.sectionName, [c])]

/-- The `defaultdict(list)` grouping of `create_simple_reviewed_copy`:
keys in first-appearance order, comments appended in list order. -/
def groupCommentsBySection (cs : List CommentData) : List (String × List CommentData) :=
  cs.foldl groupStep []

/-- The bulleted line emitted for one comment by
`create_simple_reviewed_copy` (lines 606-610): a bold run
`[author] TYPE - RISK Risk: ` followed by the comment text, with the
author defaulting to `AI Feedback`. -/
def bulletFor (c : CommentData) : DocElem :=
  DocElem.bulletPara
    ("[" ++ c.author.getD "AI Feedback" ++ "] " ++ pyUpperStr c.ctype ++ " - "
      ++ c.risk_level ++ " Risk: ")
    c.comment

/-- `create_simple_reviewed_copy` (`core_functionality.py` lines
585-613) viewed as the document it builds: the original document's
elements followed by a page break, the `Hawkeye Review Feedback
Summary` heading, a timestamp paragraph, a count paragraph, a blank
paragraph, and then per grouped section a level-2 heading and one
bullet per comment.  `now` stands for the formatted
`datetime.now()` string. -/
def create_simple_reviewed_copy (original : List DocElem) (now : String)
    (comments_data : List CommentData) : List DocElem :=
  original ++
  [DocElem.pageBreak,
   DocElem.heading "Hawkeye Review Feedback Summary" 1,
   DocElem.para ("Generated on: " ++ now),
   DocElem.para ("Total feedback items: " ++ toString comments_data.length),
   DocElem.para ""] ++
  ((groupCommentsBySection comments_data).map (fun g =>
    DocElem.heading g.1 2 :: g.2.map bulletFor)).flatten

/-- Whether a document element is a bulleted line. -/
def isBulletElem : DocElem → Bool
  | DocElem.bulletPara _ _ => true
  | _ => false

/-- Whether a document element is a heading with the given text. -/
def isHeadingWithText (t : String) : DocElem → Bool
  | DocElem.heading s _ => s = t
  | _ => false

/-- Number of bulleted lines in a document. -/
def countBullets (l : List DocElem) : Nat :=
  l.countP isBulletElem

/-- A staged comment as stored by `WordDocumentWithComments.add_comment`
(lines 104-113): the assigned numeric id, the target paragraph index
(stored unvalidated, possibly negative), the text, the author, and the
formatted timestamp string. -/
structure StagedComment where
  id : Nat
  paragraph_index : Int
  text : String
  author : String
  date : String
deriving DecidableEq, Repr

/-- One call to `add_comment`: the arguments it receives. -/
structure AddInput where
  paragraph_index : Int
  text : String
  author : String
  date : String
deriving DecidableEq, Repr

/-- The body of `add_comment`: append a staged comment carrying the
running id, then increment the id counter. -/
def addCommentFold (acc : List StagedComment × Nat) (inp : AddInput) :
    List StagedComment × Nat :=
  (acc.1 ++ [⟨acc.2, inp.paragraph_index, inp.text, inp.author, inp.date⟩], acc.2 + 1)

/-- The staged-comment list of a fresh `WordDocumentWithComments`
after calling `add_comment` once per input, in order (`comment_id`
starts at 1). -/
def buildComments (inputs : List AddInput) : List StagedComment :=
  (inputs.foldl addCommentFold ([], 1)).1

/-- Decimal digit character. -/
def digitChar (d : Nat) : Char := Char.ofNat (48 + d)

/-- Fuelled decimal printer used to model Python `str` on the comment
id (the fuel argument always suffices since `n < 10 ^ (n + 1)`). -/
def natToStrCore : Nat → Nat → List Char → List Char
  | 0, _, acc => acc
  | fuel + 1, n, acc =>
    if n / 10 = 0 then digitChar (n % 10) :: acc
    else natToStrCore fuel (n / 10) (digitChar (n % 10) :: acc)

/-- Decimal rendering of a natural number, modelling the Python
`str(comment['id'])` interpolation. -/
def natToStr (n : Nat) : String := ⟨natToStrCore (n + 1) n []⟩

/-- Template piece of `_create_comment_xml` before the id. -/
def xmlChunkA : String := "\n        <w:comment w:id=\""

/-- Template piece between the id and the author. -/
def xmlChunkB : String := "\" w:author=\""

/-- Template piece between the author and the date. -/
def xmlChunkC : String := "\" \n                   w:date=\""

/-- Template piece between the date and the comment text. -/
def xmlChunkD : String :=
  "\" \n                   xmlns:w=\"http://schemas.openxmlformats.org/wordprocessingml/2006/main\">\n            <w:p>\n                <w:r>\n                    <w:t>"

/-- Template piece after the comment text. -/
def xmlChunkE : String :=
  "</w:t>\n                </w:r>\n            </w:p>\n        </w:comment>\n        "

/-- `_create_comment_xml` (lines 115-128): the comment element is
assembled by f-string interpolation of the id, author, date and text
into the fixed template, with no XML escaping. -/
def createCommentXml (c : StagedComment) : String :=
  xmlChunkA ++ natToStr c.id ++ xmlChunkB ++ c.author ++ xmlChunkC ++ c.date
    ++ xmlChunkD ++ c.text ++ xmlChunkE

/-- The fixed prologue of the comments part built by
`save_with_comments` (lines 143-145). -/
def commentsHeader : String :=
  "<?xml version=\"1.0\" encoding=\"UTF-8\" standalone=\"yes\"?>\n            <w:comments xmlns:w=\"http://schemas.openxmlformats.org/wordprocessingml/2006/main\">\n            "

/-- The full `word/comments.xml` text written by `save_with_comments`
(lines 143-153): prologue, one interpolated element per staged
comment appended in order, then the closing tag. -/
def fullCommentsXml (cs : List StagedComment) : String :=
  (cs.foldl (fun acc c => acc ++ createCommentXml c) commentsHeader) ++ "</w:comments>"

/-- The start tag of a comment element; its occurrence count in the
comments part is the number of comment elements a parser sees. -/
def commentTag : String := "<w:comment "

/-- The relationship entry appended by `_update_document_relationships`
(line 186). -/
def newRelationshipStr : String :=
  "<Relationship Id=\"rIdComments\" Type=\"http://schemas.openxmlformats.org/officeDocument/2006/relationships/comments\" Target=\"comments.xml\"/>"

/-- The content-type override appended by
`_update_document_relationships` (line 198). -/
def newOverrideStr : String :=
  "<Override PartName=\"/word/comments.xml\" ContentType=\"application/vnd.openxmlformats-officedocument.wordprocessingml.comments+xml\"/>"

/-- The attribute marking a comments relationship entry; its
occurrence count in the relationship manifest is the number of
comments entries there. -/
def relEntryNeedle : String := "Target=\"comments.xml\""

/-- The attribute marking a comments content-type override. -/
def ctEntryNeedle : String := "PartName=\"/word/comments.xml\""

/-- Archive path of the relationship manifest, as used at line 180. -/
def relsPath : String := "word/_rels/document.xml.rels"

/-- Archive path of the content-type manifest, as used at line 192. -/
def ctPath : String := "[Content_Types].xml"

/-- Archive path of the comments part, as used at line 141. -/
def commentsPath : String := "word/comments.xml"

/-- The unpacked archive, as a map from relative path to file text. -/
def PartsMap : Type := List (String × String)

/-- The relationship-manifest edit of `_update_document_relationships`
(lines 181-190) on the manifest text: a no-op when `comments.xml`
already occurs as a substring, otherwise every `</Relationships>` is
replaced by the new entry followed by `</Relationships>`. -/
def updateRelsContent (rels : String) : String :=
  if containsSub rels "comments.xml" then rels
  else pyReplace rels "</Relationships>" (newRelationshipStr ++ "</Relationships>")

/-- The content-type edit of `_update_document_relationships`
(lines 192-202) on the manifest text. -/
def updateTypesContent (c : String) : String :=
  if containsSub c "comments.xml" then c
  else pyReplace c "</Types>" (newOverrideStr ++ "</Types>")

/-- First half of `_update_document_relationships` (lines 180-190):
edit the relationship manifest if its file exists and does not
already mention `comments.xml`; a missing manifest is silently
skipped. -/
def updateRelsPart (ps : PartsMap) : PartsMap :=
  match dictGet ps relsPath with
  | some r =>
    if containsSub r "comments.xml" then ps
    else dictInsert ps relsPath (updateRelsContent r)
  | none => ps

/-- Second half of `_update_document_relationships` (lines 192-202):
the same treatment for the content-type manifest. -/
def updateTypesPart (ps : PartsMap) : PartsMap :=
  match dictGet ps ctPath with
  | some c =>
    if containsSub c "comments.xml" then ps
    else dictInsert ps ctPath (updateTypesContent c)
  | none => ps

/-- `_update_document_relationships` (lines 178-202) on the unpacked
parts. -/
def updateDocumentRelationships (ps : PartsMap) : PartsMap :=
  updateTypesPart (updateRelsPart ps)

/-- The comments-part write of `save_with_comments` (lines 141-153):
`word/comments.xml` is created or overwritten with the serialized
staged comments. -/
def writeCommentsPart (ps : PartsMap) (cs : List StagedComment) : PartsMap :=
  dictInsert ps commentsPath (fullCommentsXml cs)

/-- The data transformation `save_with_comments` applies to the
unpacked archive before repacking: write the comments part, then
update the two manifests. -/
def savePartsEdit (ps : PartsMap) (cs : List StagedComment) : PartsMap :=
  updateDocumentRelationships (writeCommentsPart ps cs)

/-- Abstract filesystem state tracked around `save_with_comments`:
whether the scratch directory `temp_{uuid}`, the intermediate archive
`temp_{uuid}_temp.docx`, and the output archive currently exist.  The
output flag is set as soon as `zipfile.ZipFile(output_path, 'w')`
creates the file, so a failure inside the repack loop leaves it
set. -/
structure FsState where
  tempDirExists : Bool
  tempDocxExists : Bool
  outputExists : Bool
deriving DecidableEq, Repr

/-- The primitive operations executed by `save_with_comments` in
order (lines 133-166). -/
inductive SaveOp where
  | loadDoc
  | saveTemp
  | extractArchive
  | writeCommentsXml
  | updateRelationships
  | repackArchive
  | removeTempDir
  | removeTempDocx
deriving DecidableEq, Repr

/-- Filesystem effect of an operation when it completes. -/
def opEffect : SaveOp → FsState → FsState
  | SaveOp.loadDoc, s => s
  | SaveOp.saveTemp, s => { s with tempDocxExists := true }
  | SaveOp.extractArchive, s => { s with tempDirExists := true }
  | SaveOp.writeCommentsXml, s => s
  | SaveOp.updateRelationships, s => s
  | SaveOp.repackArchive, s => { s with outputExists := true }
  | SaveOp.removeTempDir, s => { s with tempDirExists := false }
  | SaveOp.removeTempDocx, s => { s with tempDocxExists := false }

/-- Filesystem effect already performed when an operation raises
mid-way: `doc.save` may have created the intermediate archive, and
opening the output zip for writing creates the output file before the
per-file loop runs. -/
def failEffect : SaveOp → FsState → FsState
  | SaveOp.saveTemp, s => { s with tempDocxExists := true }
  | SaveOp.repackArchive, s => { s with outputExists := true }
  | _, s => s

/-- Whether the local variable `temp_docx` is already bound when the
operation raises: it is assigned on line 134, after `Document` is
opened on line 133. -/
def tempDocxBoundAt : SaveOp → Bool
  | SaveOp.loadDoc => false
  | _ => true

/-- Outcome of `save_with_comments` as seen by its caller. -/
inductive SaveOutcome where
  | success
  | returnedFalse
  | uncaughtException
deriving DecidableEq, Repr

/-- The `except` handler of `save_with_comments` (lines 170-176):
remove the scratch directory if it exists; then evaluate
`os.path.exists(temp_docx)` — which raises `UnboundLocalError` when
`temp_docx` was never assigned — and otherwise remove the
intermediate archive and return `False`.  The output archive is never
removed here. -/
def exceptHandler (bound : Bool) (s : FsState) : SaveOutcome × FsState :=
  let s1 := { s with tempDirExists := false }
  if bound then (SaveOutcome.returnedFalse, { s1 with tempDocxExists := false })
  else (SaveOutcome.uncaughtException, s1)

/-- The operations of the `try` block of `save_with_comments`, in
program order. -/
def saveOps : List SaveOp :=
  [SaveOp.loadDoc, SaveOp.saveTemp, SaveOp.extractArchive,
   SaveOp.writeCommentsXml, SaveOp.updateRelationships,
   SaveOp.repackArchive, SaveOp.removeTempDir, SaveOp.removeTempDocx]

/-- Run the remaining operations: the first operation equal to the
failure point raises and control transfers to the `except` handler;
if none fails the function returns `True`. -/
def runSaveOps (failAt : Option SaveOp) : List SaveOp → FsState → SaveOutcome × FsState
  | [], s => (SaveOutcome.success, s)
  | op :: rest, s =>
    if failAt = some op then exceptHandler (tempDocxBoundAt op) (failEffect op s)
    else runSaveOps failAt rest (opEffect op s)

/-- Control-flow model of `save_with_comments` (lines 130-176):
outcome and final filesystem state, given which primitive operation
(if any) raises. -/
def save_with_comments_run (failAt : Option SaveOp) : SaveOutcome × FsState :=
  runSaveOps failAt saveOps ⟨false, false, false⟩

/-- Decidable check that no short non-empty suffix of `a` is a prefix
of `m`; when it holds, no occurrence of `m` can straddle the boundary
of `a ++ b` for any `b`. -/
def suffixClash (m a : List Char) : Bool :=
  (List.range m.length).any (fun k =>
    decide (0 < k) && decide (k ≤ a.length) && (a.drop (a.length - k)).isPrefixOf m)

theorem occ_append_of_no_straddle {m a b : List Char}
    (h : ∀ s : List Char, s <:+ a → s ≠ [] → s.length < m.length →
      ¬ m.isPrefixOf (s ++ b) = true) :
    occ m (a ++ b) = occ m a + occ m b := by
  induction a with
  | nil => simp [occ]
  | cons c a ih =>
    have hsub : ∀ s : List Char, s <:+ a → s ≠ [] → s.length < m.length →
        ¬ m.isPrefixOf (s ++ b) = true := by
      intro s hs hne hlen
      exact h s (hs.trans (List.suffix_cons c a)) hne hlen
    have hrec := ih hsub
    have hhead : m <+: c :: (a ++ b) ↔ m <+: c :: a := by
      rcases Nat.lt_or_ge ((c :: a).length) m.length with hlt | hge
      · constructor
        · intro hpre
          exfalso
          apply h (c :: a) (List.suffix_refl _) (by simp) hlt
          rw [List.isPrefixOf_iff_prefix, List.cons_append]
          exact hpre
        · intro hpre
          exfalso
          have := hpre.length_le
          omega
      · rw [List.prefix_iff_eq_take, List.prefix_iff_eq_take, ← List.cons_append,
          List.take_append_of_le_length hge]
    have hb : m.isPrefixOf (c :: (a ++ b)) = m.isPrefixOf (c :: a) := by
      rw [Bool.eq_iff_iff, List.isPrefixOf_iff_prefix, List.isPrefixOf_iff_prefix]
      exact hhead
    calc occ m ((c :: a) ++ b)
        = (if m.isPrefixOf (c :: (a ++ b)) = true then 1 else 0) + occ m (a ++ b) := by
          rw [List.cons_append]; rfl
      _ = (if m.isPrefixOf (c :: a) = true then 1 else 0) + (occ m a + occ m b) := by
          rw [hb, hrec]
      _ = occ m (c :: a) + occ m b := by
          show _ = (if m.isPrefixOf (c :: a) = true then 1 else 0) + occ m a + occ m b
          omega

theorem no_straddle_of_suffixClash_false {m a : List Char}
    (hc : suffixClash m a = false) (b : List Char) :
    ∀ s : List Char, s <:+ a → s ≠ [] → s.length < m.length →
      ¬ m.isPrefixOf (s ++ b) = true := by
  intro s hs hne hlen hpre
  rw [List.isPrefixOf_iff_prefix] at hpre
  have hsp : s <+: m :=
    List.prefix_of_prefix_length_le (List.prefix_append s b) hpre (Nat.le_of_lt hlen)
  have hdrop : a.drop (a.length - s.length) = s := by
    obtain ⟨t, ht⟩ := hs
    subst ht
    have h1 : (t ++ s).length - s.length = t.length := by
      rw [List.length_append]
      omega
    rw [h1, List.drop_append_of_le_length (Nat.le_refl t.length), List.drop_length,
      List.nil_append]
  rw [suffixClash, List.any_eq_false] at hc
  have hmem : s.length ∈ List.range m.length := List.mem_range.mpr hlen
  have := hc s.length hmem
  apply this
  have h1 : 0 < s.length := List.length_pos.mpr hne
  have h2 : s.length ≤ a.length := hs.length_le
  simp only [Bool.and_eq_true, decide_eq_true_iff]
  refine ⟨⟨h1, h2⟩, ?_⟩
  rw [hdrop, List.isPrefixOf_iff_prefix]
  exact hsp

theorem occ_append_of_suffixClash {m a : List Char} (b : List Char)
    (hc : suffixClash m a = false) :
    occ m (a ++ b) = occ m a + occ m b :=
  occ_append_of_no_straddle (no_straddle_of_suffixClash_false hc b)

theorem occ_eq_zero_of_head_notMem {m a : List Char} {c : Char}
    (hm : m.head? = some c) (hc : c ∉ a) : occ m a = 0 := by
  induction a with
  | nil => rfl
  | cons d a ih =>
    have hd : d ≠ c := fun h => hc (h ▸ List.mem_cons_self d a)
    have hrest : c ∉ a := fun h => hc (List.mem_cons_of_mem d h)
    have hfalse : m.isPrefixOf (d :: a) = false := by
      rcases m with _ | ⟨e, m⟩
      · simp at hm
      · have he : e = c := by simpa using hm
        subst he
        rw [Bool.eq_false_iff]
        intro hpre
        rw [List.isPrefixOf_iff_prefix, List.cons_prefix_cons] at hpre
        exact hd hpre.1.symm
    show (if m.isPrefixOf (d :: a) = true then 1 else 0) + occ m a = 0
    rw [hfalse, ih hrest]
    simp

theorem occ_append_of_head_notMem {m a b : List Char} {c : Char}
    (hm : m.head? = some c) (hc : c ∉ a) :
    occ m (a ++ b) = occ m b := by
  have h0 : occ m a = 0 := occ_eq_zero_of_head_notMem hm hc
  have key : occ m (a ++ b) = occ m a + occ m b := by
    apply occ_append_of_no_straddle
    intro s hs hne hlen hpre
    rw [List.isPrefixOf_iff_prefix] at hpre
    have hsp : s <+: m :=
      List.prefix_of_prefix_length_le (List.prefix_append s b) hpre (Nat.le_of_lt hlen)
    rcases s with _ | ⟨d, s⟩
    · exact hne rfl
    · rcases m with _ | ⟨e, m⟩
      · simp at hm
      · have he : e = c := by simpa using hm
        rw [List.cons_prefix_cons] at hsp
        have : d = c := hsp.1.trans he
        exact hc (this ▸ hs.subset (List.mem_cons_self d s))
  omega

theorem suffix_of_suffix_length_le {σ t a : List Char}
    (h1 : σ <:+ a) (h2 : t <:+ a) (h : σ.length ≤ t.length) : σ <:+ t := by
  rw [← List.reverse_prefix] at h1 h2 ⊢
  exact List.prefix_of_prefix_length_le h1 h2 (by simpa)

theorem occ_append_of_clash_tail {m t : List Char} (x b : List Char)
    (hc : suffixClash m t = false) (hlen : m.length ≤ t.length + 1) :
    occ m ((x ++ t) ++ b) = occ m (x ++ t) + occ m b := by
  apply occ_append_of_no_straddle
  intro s hs hne hslen
  have hst : s <:+ t :=
    suffix_of_suffix_length_le hs (List.suffix_append x t) (by omega)
  exact no_straddle_of_suffixClash_false hc b s hst hne hslen

theorem occ_le_append_left {m : List Char} (a b : List Char) :
    occ m a ≤ occ m (a ++ b) := by
  induction a with
  | nil => simp [occ]
  | cons c a ih =>
    have hite : (if m.isPrefixOf (c :: a) = true then 1 else 0) ≤
        (if m.isPrefixOf (c :: (a ++ b)) = true then 1 else 0) := by
      by_cases hpre : m.isPrefixOf (c :: a) = true
      · have : m.isPrefixOf (c :: (a ++ b)) = true := by
          rw [List.isPrefixOf_iff_prefix] at hpre ⊢
          rw [← List.cons_append]
          exact hpre.trans (List.prefix_append (c :: a) b)
        simp [hpre, this]
      · simp [hpre]
    calc occ m ((c :: a) ++ b)
        = (if m.isPrefixOf (c :: (a ++ b)) = true then 1 else 0) + occ m (a ++ b) := by
          rw [List.cons_append]; rfl
      _ ≥ (if m.isPrefixOf (c :: a) = true then 1 else 0) + occ m a := by
          have := ih
          omega
      _ = occ m (c :: a) := rfl

theorem occ_le_append_right {m : List Char} (a b : List Char) :
    occ m b ≤ occ m (a ++ b) := by
  induction a with
  | nil => simp
  | cons c a ih =>
    calc occ m b ≤ occ m (a ++ b) := ih
      _ ≤ (if m.isPrefixOf (c :: (a ++ b)) = true then 1 else 0) + occ m (a ++ b) := by omega
      _ = occ m ((c :: a) ++ b) := by rw [List.cons_append]; rfl

theorem occ_prefix_eq_zero {m p t : List Char} (h0 : occ m (p ++ t) = 0) :
    occ m p = 0 :=
  Nat.le_zero.mp (h0 ▸ occ_le_append_left p t)

theorem occ_suffix_eq_zero {m p t : List Char} (h0 : occ m (p ++ t) = 0) :
    occ m t = 0 :=
  Nat.le_zero.mp (h0 ▸ occ_le_append_right p t)

theorem infix_of_occ_pos {n h : List Char} (hp : 0 < occ n h) : n <:+: h := by
  induction h with
  | nil => simp [occ] at hp
  | cons c rest ih =>
    by_cases hpre : n.isPrefixOf (c :: rest) = true
    · rw [List.isPrefixOf_iff_prefix] at hpre
      exact hpre.isInfix
    · have heq : occ n (c :: rest) = occ n rest := by
        show (if n.isPrefixOf (c :: rest) = true then 1 else 0) + occ n rest = _
        simp [hpre]
      rw [heq] at hp
      exact List.infix_cons (ih hp)

theorem occ_eq_zero_of_not_infix {n h : List Char} (hni : ¬ n <:+: h) :
    occ n h = 0 := by
  by_contra hne
  exact hni (infix_of_occ_pos (Nat.pos_of_ne_zero hne))

theorem replaceList_nil_hay (n r : List Char) : replaceList n r [] = [] := by
  rw [replaceList]
  split
  · rfl
  · rfl

theorem replaceList_cons {n : List Char} (hn : n ≠ []) (r : List Char)
    (c : Char) (rest : List Char) :
    replaceList n r (c :: rest) =
      if n.isPrefixOf (c :: rest) then r ++ replaceList n r (rest.drop (n.length - 1))
      else c :: replaceList n r rest := by
  rw [replaceList]
  simp [hn]

theorem replaceList_of_occ_zero {n r h : List Char} (hn : n ≠ [])
    (h0 : occ n h = 0) : replaceList n r h = h := by
  induction h with
  | nil => exact replaceList_nil_hay n r
  | cons c rest ih =>
    have hocc : (if n.isPrefixOf (c :: rest) = true then 1 else 0) + occ n rest = 0 := h0
    have hpre : n.isPrefixOf (c :: rest) = false := by
      by_contra hne
      rw [Bool.not_eq_false] at hne
      rw [hne] at hocc
      simp at hocc
    have hrest : occ n rest = 0 := by
      rw [hpre] at hocc
      simpa using hocc
    rw [replaceList_cons hn, hpre]
    simp [ih hrest]

theorem replaceList_decomp {n r h : List Char} (hn : n ≠ [])
    (h1 : occ n h = 1) :
    ∃ p s : List Char, h = p ++ n ++ s ∧ occ n p = 0 ∧ occ n s = 0 ∧
      replaceList n r h = p ++ r ++ s := by
  induction h with
  | nil => simp [occ] at h1
  | cons c rest ih =>
    have hocc : (if n.isPrefixOf (c :: rest) = true then 1 else 0) + occ n rest = 1 := h1
    by_cases hpre : n.isPrefixOf (c :: rest) = true
    · have hrest : occ n rest = 0 := by
        rw [hpre] at hocc
        simpa using hocc
      rw [List.isPrefixOf_iff_prefix] at hpre
      obtain ⟨t, ht⟩ := hpre
      have htdrop : t = rest.drop (n.length - 1) := by
        have h2 : (n ++ t).drop n.length = t := by
          rw [List.drop_append_of_le_length (Nat.le_refl n.length), List.drop_length,
            List.nil_append]
        rw [ht] at h2
        have hpos : 0 < n.length := List.length_pos.mpr hn
        have h3 : (c :: rest).drop n.length = rest.drop (n.length - 1) := by
          conv_lhs => rw [show n.length = (n.length - 1) + 1 from by omega]
          rw [List.drop_succ_cons]
        rw [← h2, h3]
      have htsuf : t <:+ rest := by
        rw [htdrop]
        exact List.drop_suffix _ rest
      have hts : occ n t = 0 := by
        obtain ⟨u, hu⟩ := htsuf
        exact occ_suffix_eq_zero (hu ▸ hrest)
      refine ⟨[], t, by simpa using ht.symm, rfl, hts, ?_⟩
      rw [replaceList_cons hn, List.isPrefixOf_iff_prefix.mpr ⟨t, ht⟩]
      simp only [if_pos]
      rw [← htdrop, replaceList_of_occ_zero hn hts]
      simp
    · have hrest : occ n rest = 1 := by
        rw [Bool.not_eq_true] at hpre
        rw [hpre] at hocc
        simpa using hocc
      obtain ⟨p, s, hdec, hp0, hs0, hrepl⟩ := ih hrest
      have hpc : occ n (c :: p) = 0 := by
        have hnp : n.isPrefixOf (c :: p) = false := by
          by_contra hne
          rw [Bool.not_eq_false, List.isPrefixOf_iff_prefix] at hne
          apply hpre
          rw [List.isPrefixOf_iff_prefix, hdec]
          have hassoc : c :: (p ++ n ++ s) = (c :: p) ++ (n ++ s) := by simp
          rw [hassoc]
          exact hne.trans (List.prefix_append (c :: p) (n ++ s))
        show (if n.isPrefixOf (c :: p) = true then 1 else 0) + occ n p = 0
        rw [hnp, hp0]
        simp
      refine ⟨c :: p, s, by simp [hdec], hpc, hs0, ?_⟩
      rw [replaceList_cons hn]
      rw [Bool.not_eq_true] at hpre
      rw [hpre]
      simp [hrepl]

theorem mem_dictInsert {α : Type} {d : List (String × α)} {k : String} {v : α}
    {kv : String × α} (h : kv ∈ dictInsert d k v) : kv ∈ d ∨ kv = (k, v) := by
  unfold dictInsert at h
  by_cases hany : d.any (fun kv => kv.1 = k) = true
  · rw [if_pos hany] at h
    rcases List.mem_map.mp h with ⟨kv', hkv', heq⟩
    by_cases hk : kv'.1 = k
    · right
      rw [← heq, if_pos hk]
    · left
      rw [← heq, if_neg hk]
      exact hkv'
  · rw [if_neg hany] at h
    rcases List.mem_append.mp h with h1 | h1
    · exact Or.inl h1
    · right
      simpa using h1

theorem dictInsert_ne_nil {α : Type} (d : List (String × α)) (k : String) (v : α) :
    dictInsert d k v ≠ [] := by
  unfold dictInsert
  by_cases hany : d.any (fun kv => kv.1 = k) = true
  · rw [if_pos hany]
    intro hmap
    rw [List.map_eq_nil_iff] at hmap
    rw [hmap] at hany
    simp at hany
  · rw [if_neg hany]
    simp

theorem dictGet_dictInsert_self {α : Type} (d : List (String × α)) (k : String) (v : α) :
    dictGet (dictInsert d k v) k = some v := by
  unfold dictInsert
  by_cases hany : d.any (fun kv => kv.1 = k) = true
  · rw [if_pos hany]
    induction d with
    | nil => simp at hany
    | cons kv d ih =>
      by_cases hk : kv.1 = k
      · unfold dictGet
        rw [List.map_cons, if_pos hk, List.find?_cons_of_pos _ (by simp)]
        rfl
      · have hany' : d.any (fun kv => kv.1 = k) = true := by
          rcases List.any_eq_true.mp hany with ⟨x, hx, hxk⟩
          rcases List.mem_cons.mp hx with hx1 | hx1
          · exfalso
            apply hk
            subst hx1
            simpa using hxk
          · exact List.any_eq_true.mpr ⟨x, hx1, hxk⟩
        unfold dictGet
        rw [List.map_cons, if_neg hk, List.find?_cons_of_neg _ (by simpa using hk)]
        exact ih hany'
  · rw [if_neg hany]
    have hnone : d.find? (fun kv => kv.1 = k) = none := by
      rw [List.find?_eq_none]
      intro x hx
      intro hxk
      apply hany
      exact List.any_eq_true.mpr ⟨x, hx, hxk⟩
    unfold dictGet
    rw [List.find?_append, hnone, Option.none_or,
      List.find?_cons_of_pos _ (by simp)]
    rfl

theorem dictGet_dictInsert_ne {α : Type} (d : List (String × α)) {k k' : String}
    (v : α) (hne : k' ≠ k) :
    dictGet (dictInsert d k v) k' = dictGet d k' := by
  unfold dictInsert
  by_cases hany : d.any (fun kv => kv.1 = k) = true
  · rw [if_pos hany]
    unfold dictGet
    clear hany
    induction d with
    | nil => rfl
    | cons kv d ih =>
      rw [List.map_cons]
      by_cases hk : kv.1 = k
      · rw [if_pos hk]
        have h1 : ¬ ((k, v).1 = k') := by simpa using (Ne.symm hne)
        have h2 : ¬ (kv.1 = k') := by
          rw [hk]
          exact Ne.symm hne
        rw [List.find?_cons_of_neg _ (by simpa using h1),
          List.find?_cons_of_neg _ (by simpa using h2)]
        exact ih
      · rw [if_neg hk]
        by_cases hk' : kv.1 = k'
        · rw [List.find?_cons_of_pos _ (by simpa using hk'),
            List.find?_cons_of_pos _ (by simpa using hk')]
        · rw [List.find?_cons_of_neg _ (by simpa using hk'),
            List.find?_cons_of_neg _ (by simpa using hk')]
          exact ih
  · rw [if_neg hany]
    unfold dictGet
    rw [List.find?_append]
    have h1 : List.find? (fun kv => kv.1 = k') [(k, v)] = none := by
      rw [List.find?_eq_none]
      intro x hx
      rcases List.mem_singleton.mp hx with rfl
      simpa using (Ne.symm hne)
    rw [h1]
    cases List.find? (fun kv => kv.1 = k') d <;> rfl

theorem string_ne_empty_of_data_ne_nil {s : String} (h : s.data ≠ []) : s ≠ "" := by
  intro he
  apply h
  rw [he]

theorem pyJoin_foldl_length (sep : String) (xs : List String) (acc : String) :
    acc.length ≤ (xs.foldl (fun a y => a ++ sep ++ y) acc).length := by
  induction xs generalizing acc with
  | nil => exact Nat.le_refl _
  | cons y ys ih =>
    calc acc.length ≤ (acc ++ sep ++ y).length := by
          rw [String.length_append, String.length_append]
          omega
      _ ≤ _ := ih (acc ++ sep ++ y)

theorem pyJoin_cons_ne_empty (sep : String) {x : String} (xs : List String)
    (hx : x ≠ "") : pyJoin sep (x :: xs) ≠ "" := by
  intro h
  have h1 : x.length ≤ (pyJoin sep (x :: xs)).length := pyJoin_foldl_length sep xs x
  rw [h] at h1
  have h2 : x.length = 0 := by
    have he : ("" : String).length = 0 := rfl
    omega
  apply hx
  have h4 : x.data = [] := List.length_eq_zero.mp h2
  have h5 : x.data = ("" : String).data := by rw [h4]
  exact String.ext h5

theorem pyStrip_empty : pyStrip "" = "" := rfl

/-- Invariant of the section dictionaries built by the header-driven
pass: no stored name matches an excluded fragment and no stored body
is empty. -/
def SecInv (out : ExtractOut) : Prop :=
  ∀ kv ∈ out.sections, isExcludedName kv.1 = false ∧ kv.2 ≠ ""

/-- Loop invariant for `extract_document_sections_from_docx`: the
output satisfies `SecInv` and every accumulated content line is
non-empty. -/
def StInv (st : ExtractState) : Prop :=
  SecInv st.out ∧ ∀ t ∈ st.current_content, t ≠ ""

theorem closeCurrent_secInv {st : ExtractState} (h : StInv st) :
    SecInv (closeCurrent st) := by
  unfold closeCurrent
  split
  · exact h.1
  next name heq =>
    by_cases h1 : name = ""
    · rw [if_pos h1]
      exact h.1
    · rw [if_neg h1]
      by_cases h2 : st.current_content = []
      · rw [if_pos h2]
        exact h.1
      · rw [if_neg h2]
        by_cases h3 : isExcludedName name = true
        · rw [if_pos h3]
          exact h.1
        · rw [if_neg h3]
          intro kv hkv
          rcases mem_dictInsert hkv with hold | hnew
          · exact h.1 kv hold
          · subst hnew
            refine ⟨by simpa using h3, ?_⟩
            rcases hcc : st.current_content with _ | ⟨x, xs⟩
            · exact absurd hcc h2
            · have hx : x ≠ "" := h.2 x (by rw [hcc]; exact List.mem_cons_self x xs)
              exact pyJoin_cons_ne_empty "\n" xs hx

theorem extractStep_inv {st : ExtractState} (ip : Nat × Para) (h : StInv st) :
    StInv (extractStep st ip) := by
  unfold extractStep
  by_cases hh : isSectionHeaderCore ip.2 = true
  · rw [if_pos hh]
    exact ⟨closeCurrent_secInv h, by intro t ht; simp at ht⟩
  · rw [if_neg hh]
    by_cases ht : pyStrip ip.2.text = ""
    · rw [if_pos ht]
      exact h
    · rw [if_neg ht]
      refine ⟨h.1, ?_⟩
      intro t htm
      rcases List.mem_append.mp htm with h1 | h1
      · exact h.2 t h1
      · rw [List.mem_singleton.mp h1]
        exact ht

theorem foldl_extractStep_inv (l : List (Nat × Para)) {st : ExtractState}
    (h : StInv st) : StInv (l.foldl extractStep st) := by
  induction l generalizing st with
  | nil => exact h
  | cons ip l ih => exact ih (extractStep_inv ip h)

theorem passOut_secInv (paras : List Para) : SecInv (passOut paras) := by
  unfold passOut
  apply closeCurrent_secInv
  apply foldl_extractStep_inv
  exact ⟨by intro kv hkv; simp at hkv, by intro t ht; simp at ht⟩

/-- Claim C8: a block whose runs are at most half bold is never
treated as a section header, by either extractor (the core one in
`core_functionality.py` and the one in `app.py`), regardless of its
text; a block with zero runs is covered since its bold count is
zero. -/
theorem c8_header_threshold (p : Para)
    (h : 2 * p.runs.countP (fun r => r.bold) ≤ p.runs.length) :
    isSectionHeaderCore p = false ∧ appIsHeader p = false := by
  have hb : paraIsBold p = false := by
    unfold paraIsBold
    by_cases he : p.runs.isEmpty
    · rw [if_pos he]
    · rw [if_neg he]
      simp only [decide_eq_false_iff_not]
      omega
  have hb2 : appIsBoldShort p = false := by
    unfold appIsBoldShort
    by_cases he : p.runs.isEmpty
    · rw [if_pos he]
    · rw [if_neg he]
      by_cases hlen : (pyStrip p.text).length < 100
      · rw [if_pos (by simpa using hlen)]
        simp only [decide_eq_false_iff_not]
        omega
      · rw [if_neg (by simpa using hlen)]
  constructor
  · unfold isSectionHeaderCore
    rw [hb]
    simp
  · unfold appIsHeader
    rw [hb2]
    simp

/-- Witness for C8 at a block with exactly half of its two runs
bold. -/
theorem c8_witness :
    2 * (Para.mk [⟨true⟩, ⟨false⟩] "HEADER:").runs.countP (fun r => r.bold)
      ≤ (Para.mk [⟨true⟩, ⟨false⟩] "HEADER:").runs.length ∧
    isSectionHeaderCore (Para.mk [⟨true⟩, ⟨false⟩] "HEADER:") = false ∧
    appIsHeader (Para.mk [⟨true⟩, ⟨false⟩] "HEADER:") = false :=
  ⟨by decide, (c8_header_threshold _ (by decide)).1, (c8_header_threshold _ (by decide)).2⟩

/-- Claim C9: when the header-driven pass stores at least one section,
every body in the extraction result is a non-empty string — a header
followed by no non-empty content before the next header is never
stored, so no empty bodies ever appear. -/
theorem c9_nonempty_bodies (paras : List Para)
    (h : (passOut paras).sections ≠ []) :
    ∀ kv ∈ (extract_document_sections_from_docx paras).sections, kv.2 ≠ "" := by
  intro kv hkv
  unfold extract_document_sections_from_docx at hkv
  rw [if_neg h] at hkv
  exact (passOut_secInv paras kv hkv).2

/-- Witness for C9: a document with a content-bearing header followed
by an empty header stores exactly one section, with a non-empty
body. -/
theorem c9_witness :
    (passOut [⟨[⟨true⟩], "SUMMARY:"⟩, ⟨[], "x"⟩, ⟨[⟨true⟩], "DETAILS:"⟩]).sections ≠ [] ∧
    ∀ kv ∈ (extract_document_sections_from_docx
      [⟨[⟨true⟩], "SUMMARY:"⟩, ⟨[], "x"⟩, ⟨[⟨true⟩], "DETAILS:"⟩]).sections, kv.2 ≠ "" :=
  ⟨by decide, c9_nonempty_bodies _ (by decide)⟩

/-- Claim C1 counterexample: a document whose only section derives the
excluded name `ORIGINAL EMAIL` does not produce an empty result — the
`Main Content` fallback fires and re-emits the excluded content,
contradicting the claim that the result then contains no section at
all. -/
theorem c1_counterexample :
    isExcludedName "ORIGINAL EMAIL" = true ∧
    (extract_document_sections_from_docx
      [⟨[⟨true⟩], "ORIGINAL EMAIL:"⟩, ⟨[], "hello"⟩]).sections
      = [("Main Content", "ORIGINAL EMAIL:\nhello")] ∧
    (extract_document_sections_from_docx
      [⟨[⟨true⟩], "ORIGINAL EMAIL:"⟩, ⟨[], "hello"⟩]).sections ≠ [] :=
  ⟨by decide, by decide, by decide⟩

/-- Claim C1 amended: a section name matching an excluded fragment
never appears as a key of the result; but when exclusion leaves the
pass with no sections, the fallback synthesizes `Main Content` from
every non-empty block, re-emitting the excluded content rather than
dropping it. -/
theorem c1_amended_no_excluded_key :
    (∀ paras : List Para, ∀ kv ∈ (extract_document_sections_from_docx paras).sections,
      isExcludedName kv.1 = false) ∧
    (extract_document_sections_from_docx
      [⟨[⟨true⟩], "ORIGINAL EMAIL:"⟩, ⟨[], "hello"⟩]).sections
      = [("Main Content", "ORIGINAL EMAIL:\nhello")] := by
  constructor
  · intro paras kv hkv
    unfold extract_document_sections_from_docx at hkv
    by_cases hp : (passOut paras).sections = []
    · rw [if_pos hp] at hkv
      unfold fallbackOut at hkv
      rcases List.mem_singleton.mp hkv with rfl
      show isExcludedName "Main Content" = false
      decide
    · rw [if_neg hp] at hkv
      exact (passOut_secInv paras kv hkv).1
  · decide

/-- Witness for the amended C1 at a stored, non-excluded section. -/
theorem c1_amended_witness : isExcludedName "BACKGROUND" = false :=
  c1_amended_no_excluded_key.1 [⟨[⟨true⟩], "BACKGROUND:"⟩, ⟨[], "x"⟩]
    ("BACKGROUND", "x") (by decide)

/-- Claim C4 counterexample: a non-empty block sequence whose only
block has empty text yields `Main Content` with an empty body, so no
section with non-empty body exists in the result. -/
theorem c4_counterexample :
    (extract_document_sections_from_docx [⟨[], ""⟩]).sections = [("Main Content", "")] ∧
    ¬ ∃ kv ∈ (extract_document_sections_from_docx [⟨[], ""⟩]).sections, kv.2 ≠ "" :=
  ⟨by decide, by decide⟩

/-- Claim C4 amended: extraction always returns at least one section
(for any block sequence, even empty ones); and whenever some block has
non-empty stripped text, at least one returned section has a
non-empty body. -/
theorem c4_amended_totality (paras : List Para) :
    (extract_document_sections_from_docx paras).sections ≠ [] ∧
    ((∃ p ∈ paras, pyStrip p.text ≠ "") →
      ∃ kv ∈ (extract_document_sections_from_docx paras).sections, kv.2 ≠ "") := by
  unfold extract_document_sections_from_docx
  by_cases hp : (passOut paras).sections = []
  · rw [if_pos hp]
    constructor
    · unfold fallbackOut
      simp
    · rintro ⟨p, hp1, hp2⟩
      have hmem : p ∈ paras.filter (fun p => !(pyStrip p.text = "")) :=
        List.mem_filter.mpr ⟨hp1, by simpa using hp2⟩
      rcases hflt : paras.filter (fun p => !(pyStrip p.text = "")) with _ | ⟨x, xs⟩
      · rw [hflt] at hmem
        simp at hmem
      · have hx : x ∈ paras.filter (fun p => !(pyStrip p.text = "")) := by
          rw [hflt]
          exact List.mem_cons_self x xs
        have hq : (!decide (pyStrip x.text = "")) = true := (List.mem_filter.mp hx).2
        have hxne : x.text ≠ "" := by
          intro he
          rw [he, pyStrip_empty] at hq
          simp at hq
        refine ⟨("Main Content",
          pyJoin "\n" ((paras.filter (fun p => !(pyStrip p.text = ""))).map (fun p => p.text))),
          ?_, ?_⟩
        · unfold fallbackOut
          exact List.mem_singleton.mpr rfl
        · show pyJoin "\n" _ ≠ ""
          rw [hflt, List.map_cons]
          exact pyJoin_cons_ne_empty "\n" _ hxne
  · rw [if_neg hp]
    refine ⟨hp, ?_⟩
    intro _
    rcases hsec : (passOut paras).sections with _ | ⟨kv, rest⟩
    · exact absurd hsec hp
    · refine ⟨kv, List.mem_cons_self kv rest, ?_⟩
      exact (passOut_secInv paras kv (by rw [hsec]; exact List.mem_cons_self kv rest)).2

/-- Witness for the amended C4 at a one-block document. -/
theorem c4_amended_witness :
    (extract_document_sections_from_docx [⟨[], "hello"⟩]).sections ≠ [] ∧
    ∃ kv ∈ (extract_document_sections_from_docx [⟨[], "hello"⟩]).sections, kv.2 ≠ "" :=
  ⟨(c4_amended_totality [⟨[], "hello"⟩]).1,
   (c4_amended_totality [⟨[], "hello"⟩]).2 ⟨⟨[], "hello"⟩, by decide, by decide⟩⟩

theorem appIsHeader_strip_ne {p : Para} (h : appIsHeader p = true) :
    pyStrip p.text ≠ "" := by
  intro he
  unfold appIsHeader at h
  rw [he] at h
  have h1 : pyEndsWithColon "" = false := rfl
  have h2 : pyIsUpper "" = false := rfl
  rw [h1, h2] at h
  simp at h

theorem appFold_accum (pre : List Para) :
    ∀ st : AppState,
    (∀ p ∈ pre, appIsHeader p = false ∧ pyStrip p.text ≠ "") →
    pre.foldl appStep st =
      ⟨st.sections, st.current_section, st.content ++ pre.map (fun p => pyStrip p.text)⟩ := by
  induction pre with
  | nil =>
    intro st _
    simp
  | cons p pre ih =>
    intro st hall
    have hp := hall p (List.mem_cons_self p pre)
    have hstep : appStep st p =
        { st with content := st.content ++ [pyStrip p.text] } := by
      unfold appStep
      rw [if_neg hp.2, if_neg (by rw [hp.1]; exact Bool.false_ne_true)]
    rw [List.foldl_cons, hstep,
      ih _ (fun q hq => hall q (List.mem_cons_of_mem p hq))]
    simp

/-- Invariant carried while processing the blocks after the first
header in `extract_sections`: `Main Content` is bound to the preamble
body and the current section name is something else. -/
def AppInv (j : String) (st : AppState) : Prop :=
  dictGet st.sections "Main Content" = some j ∧ st.current_section ≠ "Main Content"

theorem appStep_inv {j : String} {st : AppState} (p : Para)
    (hinv : AppInv j st)
    (hp : appIsHeader p = true → rstripColon (pyStrip p.text) ≠ "Main Content") :
    AppInv j (appStep st p) := by
  unfold appStep
  by_cases he : pyStrip p.text = ""
  · rw [if_pos he]
    exact hinv
  · rw [if_neg he]
    by_cases hh : appIsHeader p = true
    · rw [if_pos hh]
      refine ⟨?_, hp hh⟩
      by_cases hc : st.content = []
      · rw [if_pos hc]
        exact hinv.1
      · rw [if_neg hc]
        rw [dictGet_dictInsert_ne _ _ hinv.2.symm]
        exact hinv.1
    · rw [if_neg hh]
      exact hinv

theorem appFold_inv {j : String} (rest : List Para) :
    ∀ st : AppState, AppInv j st →
    (∀ p ∈ rest, appIsHeader p = true → rstripColon (pyStrip p.text) ≠ "Main Content") →
    AppInv j (rest.foldl appStep st) := by
  induction rest with
  | nil =>
    intro st hinv _
    exact hinv
  | cons p rest ih =>
    intro st hinv hall
    rw [List.foldl_cons]
    exact ih _ (appStep_inv p hinv (hall p (List.mem_cons_self p rest)))
      (fun q hq => hall q (List.mem_cons_of_mem p hq))

/-- Claim C5 counterexample, against
`extract_document_sections_from_docx`: a non-empty non-header block
followed by a confirmed header and a body loses the preamble text
entirely — nothing is stored under `Main Content`. -/
theorem c5_counterexample :
    isSectionHeaderCore ⟨[], "intro text"⟩ = false ∧
    pyStrip (Para.text ⟨[], "intro text"⟩) ≠ "" ∧
    isSectionHeaderCore ⟨[⟨true⟩], "BACKGROUND:"⟩ = true ∧
    (extract_document_sections_from_docx
      [⟨[], "intro text"⟩, ⟨[⟨true⟩], "BACKGROUND:"⟩, ⟨[], "body"⟩]).sections
      = [("BACKGROUND", "body")] ∧
    dictGet (extract_document_sections_from_docx
      [⟨[], "intro text"⟩, ⟨[⟨true⟩], "BACKGROUND:"⟩, ⟨[], "body"⟩]).sections
      "Main Content" = none :=
  ⟨by decide, by decide, by decide, by decide, by decide⟩

/-- Claim C5 amended: the property holds of `extract_sections` in
`app.py` (whose current section starts as `Main Content`), not of
`extract_document_sections_from_docx` (whose current section starts
as `None`, so the preamble is discarded): text accumulated before the
first confirmed header is stored under `Main Content`, provided no
later header re-derives that name. -/
theorem c5_amended_app_preamble (pre : List Para) (h : Para) (rest : List Para)
    (hpre_ne : pre ≠ [])
    (hpre : ∀ p ∈ pre, appIsHeader p = false ∧ pyStrip p.text ≠ "")
    (hh : appIsHeader h = true)
    (hhname : rstripColon (pyStrip h.text) ≠ "Main Content")
    (hrest : ∀ p ∈ rest, appIsHeader p = true → rstripColon (pyStrip p.text) ≠ "Main Content") :
    dictGet (extract_sections (pre ++ h :: rest)) "Main Content"
      = some (pyJoin "\n" (pre.map (fun p => pyStrip p.text))) := by
  unfold extract_sections
  rw [List.foldl_append, List.foldl_cons]
  rw [appFold_accum pre _ hpre]
  have hcontent : ([] : List String) ++ pre.map (fun p => pyStrip p.text) ≠ [] := by
    simp only [List.nil_append]
    intro hmap
    rw [List.map_eq_nil_iff] at hmap
    exact hpre_ne hmap
  have hstep : appStep ⟨[], "Main Content",
      [] ++ pre.map (fun p => pyStrip p.text)⟩ h =
      ⟨[("Main Content", pyJoin "\n" (pre.map (fun p => pyStrip p.text)))],
        rstripColon (pyStrip h.text), []⟩ := by
    unfold appStep
    rw [if_neg (appIsHeader_strip_ne hh), if_pos hh]
    have : dictInsert ([] : List (String × String)) "Main Content"
        (pyJoin "\n" ([] ++ pre.map (fun p => pyStrip p.text)))
        = [("Main Content", pyJoin "\n" (pre.map (fun p => pyStrip p.text)))] := by
      simp [dictInsert]
    rw [if_neg hcontent, this]
  rw [hstep]
  have hinv : AppInv (pyJoin "\n" (pre.map (fun p => pyStrip p.text)))
      ⟨[("Main Content", pyJoin "\n" (pre.map (fun p => pyStrip p.text)))],
        rstripColon (pyStrip h.text), []⟩ := by
    constructor
    · simp [dictGet]
    · exact hhname
  have hfinal := appFold_inv rest _ hinv hrest
  unfold appFinal
  by_cases hc : (rest.foldl appStep
      ⟨[("Main Content", pyJoin "\n" (pre.map (fun p => pyStrip p.text)))],
        rstripColon (pyStrip h.text), []⟩).content = []
  · rw [if_pos hc]
    exact hfinal.1
  · rw [if_neg hc]
    rw [dictGet_dictInsert_ne _ _ hfinal.2.symm]
    exact hfinal.1

/-- Witness for the amended C5: a preamble block, then a bold
upper-case colon header, with nothing after it. -/
theorem c5_amended_witness :
    dictGet (extract_sections [⟨[], "intro"⟩, ⟨[⟨true⟩], "STUFF:"⟩]) "Main Content"
      = some "intro" := by
  have h := c5_amended_app_preamble [⟨[], "intro"⟩] ⟨[⟨true⟩], "STUFF:"⟩ []
    (by decide) (by decide) (by decide) (by decide) (by decide)
  simpa using h

theorem groupStep_keys (acc : List (String × List CommentData)) (c : CommentData) :
    (groupStep acc c).map (fun g => g.1) =
      if acc.any (fun g => g.1 = c.sectionName) then acc.map (fun g => g.1)
      else acc.map (fun g => g.1) ++ [c.sectionName] := by
  unfold groupStep
  by_cases hany : acc.any (fun g => g.1 = c.sectionName) = true
  · rw [if_pos hany, if_pos hany, List.map_map]
    apply List.map_congr_left
    intro g _
    by_cases hg : g.1 = c.sectionName
    · simp [hg]
    · simp [hg]
  · rw [if_neg hany, if_neg hany]
    simp

theorem update_map_sum (c : CommentData) :
    ∀ acc : List (String × List CommentData),
    (acc.map (fun g => g.1)).Nodup →
    acc.any (fun g => g.1 = c.sectionName) = true →
    ((acc.map (fun g' => if g'.1 = c.sectionName then (g'.1, g'.2 ++ [c]) else g')).map
      (fun g => g.2.length)).sum =
      (acc.map (fun g => g.2.length)).sum + 1 := by
  intro acc
  induction acc with
  | nil =>
    intro _ hany
    simp at hany
  | cons g acc ih =>
    intro hnd hany
    by_cases hg : g.1 = c.sectionName
    · have hnotin : ∀ g' ∈ acc, g'.1 ≠ c.sectionName := by
        intro g' hg' he
        have hmem : g.1 ∈ acc.map (fun g => g.1) := by
          rw [hg, ← he]
          exact List.mem_map_of_mem _ hg'
        exact (List.nodup_cons.mp hnd).1 hmem
      have hmap : acc.map (fun g' => if g'.1 = c.sectionName then (g'.1, g'.2 ++ [c]) else g')
          = acc := by
        conv_rhs => rw [← List.map_id acc]
        apply List.map_congr_left
        intro g' hg'
        rw [if_neg (hnotin g' hg')]
        rfl
      rw [List.map_cons, hmap, if_pos hg]
      simp only [List.map_cons, List.sum_cons, List.length_append, List.length_cons,
        List.length_nil]
      omega
    · have hany' : acc.any (fun g => g.1 = c.sectionName) = true := by
        rcases List.any_eq_true.mp hany with ⟨x, hx, hxk⟩
        rcases List.mem_cons.mp hx with hx1 | hx1
        · exfalso
          apply hg
          subst hx1
          simpa using hxk
        · exact List.any_eq_true.mpr ⟨x, hx1, hxk⟩
      have hnd' : (acc.map (fun g => g.1)).Nodup := (List.nodup_cons.mp hnd).2
      rw [List.map_cons, if_neg hg]
      simp only [List.map_cons, List.sum_cons]
      rw [ih hnd' hany']
      omega

theorem groupStep_sum {acc : List (String × List CommentData)} (c : CommentData)
    (hnd : (acc.map (fun g => g.1)).Nodup) :
    ((groupStep acc c).map (fun g => g.2.length)).sum =
      (acc.map (fun g => g.2.length)).sum + 1 := by
  unfold groupStep
  by_cases hany : acc.any (fun g => g.1 = c.sectionName) = true
  · rw [if_pos hany]
    exact update_map_sum c acc hnd hany
  · rw [if_neg hany]
    simp

theorem groupFold_sum (cs : List CommentData) :
    ∀ acc : List (String × List CommentData),
    (acc.map (fun g => g.1)).Nodup →
    ((cs.foldl groupStep acc).map (fun g => g.2.length)).sum =
      (acc.map (fun g => g.2.length)).sum + cs.length := by
  induction cs with
  | nil =>
    intro acc _
    simp
  | cons c cs ih =>
    intro acc hnd
    rw [List.foldl_cons]
    have hnd' : ((groupStep acc c).map (fun g => g.1)).Nodup := by
      rw [groupStep_keys]
      by_cases hany : acc.any (fun g => g.1 = c.sectionName) = true
      · rw [if_pos hany]
        exact hnd
      · rw [if_neg hany]
        rw [List.nodup_append]
        refine ⟨hnd, List.nodup_singleton _, ?_⟩
        intro x hx
        rcases List.mem_map.mp hx with ⟨g, hg, hgx⟩
        simp only [List.mem_singleton]
        intro he
        apply hany
        apply List.any_eq_true.mpr
        refine ⟨g, hg, ?_⟩
        rw [hgx, he]
        simp
    rw [ih _ hnd', groupStep_sum c hnd]
    simp only [List.length_cons]
    omega

theorem groupFold_mem (cs : List CommentData) :
    ∀ (acc : List (String × List CommentData)) (g : String × List CommentData),
    g ∈ cs.foldl groupStep acc → ∀ d ∈ g.2,
    (∃ g' ∈ acc, d ∈ g'.2) ∨ d ∈ cs := by
  induction cs with
  | nil =>
    intro acc g hg d hd
    exact Or.inl ⟨g, hg, hd⟩
  | cons c cs ih =>
    intro acc g hg d hd
    rw [List.foldl_cons] at hg
    rcases ih _ g hg d hd with ⟨g', hg', hd'⟩ | hdc
    · unfold groupStep at hg'
      by_cases hany : acc.any (fun g => g.1 = c.sectionName) = true
      · rw [if_pos hany] at hg'
        rcases List.mem_map.mp hg' with ⟨g0, hg0, hg0e⟩
        by_cases hk : g0.1 = c.sectionName
        · rw [if_pos hk] at hg0e
          rw [← hg0e] at hd'
          rcases List.mem_append.mp hd' with hl | hr
          · exact Or.inl ⟨g0, hg0, hl⟩
          · right
            rw [List.mem_singleton.mp hr]
            exact List.mem_cons_self c cs
        · rw [if_neg hk] at hg0e
          rw [← hg0e] at hd'
          exact Or.inl ⟨g0, hg0, hd'⟩
      · rw [if_neg hany] at hg'
        rcases List.mem_append.mp hg' with hl | hr
        · exact Or.inl ⟨g', hl, hd'⟩
        · rw [List.mem_singleton.mp hr] at hd'
          right
          rw [List.mem_singleton.mp hd']
          exact List.mem_cons_self c cs
    · exact Or.inr (List.mem_cons_of_mem c hdc)

theorem countBullets_groups (gs : List (String × List CommentData)) :
    countBullets ((gs.map (fun g =>
      DocElem.heading g.1 2 :: g.2.map bulletFor)).flatten) =
      (gs.map (fun g => g.2.length)).sum := by
  induction gs with
  | nil => rfl
  | cons g gs ih =>
    rw [List.map_cons, List.flatten_cons]
    unfold countBullets at ih ⊢
    rw [List.countP_append, ih]
    have h1 : List.countP isBulletElem (DocElem.heading g.1 2 :: g.2.map bulletFor)
        = g.2.length := by
      rw [List.countP_cons_of_neg _ _ (by simp [isBulletElem]), List.countP_map]
      have hall : ∀ d ∈ g.2, (isBulletElem ∘ bulletFor) d = true := by
        intro d _
        rfl
      rw [List.countP_eq_length.mpr hall]
    rw [h1]
    simp

/-- The grouped example of spec section 8: two comments for
`Background` and one for `Root Cause`. -/
def c7exampleComments : List CommentData :=
  [⟨"Background", "critical", "High", "c1", none⟩,
   ⟨"Background", "important", "Low", "c2", some "Bob"⟩,
   ⟨"Root Cause", "suggestion", "Medium", "c3", none⟩]

/-- Claim C7 counterexample: the heading appended by
`create_simple_reviewed_copy` is `Hawkeye Review Feedback Summary`,
not `Review Feedback Summary` as the claim states — no heading with
the claimed exact text appears in the output. -/
theorem c7_counterexample :
    ((create_simple_reviewed_copy [] "2024-01-01 00:00" c7exampleComments).any
      (isHeadingWithText "Review Feedback Summary")) = false ∧
    ((create_simple_reviewed_copy [] "2024-01-01 00:00" c7exampleComments).any
      (isHeadingWithText "Hawkeye Review Feedback Summary")) = true :=
  ⟨by decide, by decide⟩

/-- Claim C7 amended: the fallback annotator appends a page break, a
`Hawkeye Review Feedback Summary` heading (which contains the phrase
`Review Feedback Summary`), a timestamp, a total count, and then per
grouped section a sub-heading and exactly one bullet per comment of
that section in the form `[author] TYPE - RISK Risk: text`; the bullet
count equals the comment count, every bullet comes from a comment, and
the spec's two-section example produces exactly the expected
document. -/
theorem c7_amended_fallback :
    (∀ (now : String) (cs : List CommentData),
      countBullets (create_simple_reviewed_copy [] now cs) = cs.length) ∧
    (∀ (original : List DocElem) (now : String) (cs : List CommentData),
      ∀ e ∈ create_simple_reviewed_copy original now cs,
        isBulletElem e = true → e ∈ original ∨ ∃ c ∈ cs, e = bulletFor c) ∧
    create_simple_reviewed_copy [] "2024-01-01 00:00" c7exampleComments =
      [DocElem.pageBreak,
       DocElem.heading "Hawkeye Review Feedback Summary" 1,
       DocElem.para "Generated on: 2024-01-01 00:00",
       DocElem.para "Total feedback items: 3",
       DocElem.para "",
       DocElem.heading "Background" 2,
       DocElem.bulletPara "[AI Feedback] CRITICAL - High Risk: " "c1",
       DocElem.bulletPara "[Bob] IMPORTANT - Low Risk: " "c2",
       DocElem.heading "Root Cause" 2,
       DocElem.bulletPara "[AI Feedback] SUGGESTION - Medium Risk: " "c3"] := by
  refine ⟨?_, ?_, by decide⟩
  · intro now cs
    unfold create_simple_reviewed_copy countBullets
    rw [List.countP_append, List.countP_append]
    have h0 : List.countP isBulletElem ([] : List DocElem) = 0 := rfl
    have h1 : List.countP isBulletElem
        [DocElem.pageBreak,
         DocElem.heading "Hawkeye Review Feedback Summary" 1,
         DocElem.para ("Generated on: " ++ now),
         DocElem.para ("Total feedback items: " ++ toString cs.length),
         DocElem.para ""] = 0 := rfl
    have h2 := countBullets_groups (groupCommentsBySection cs)
    unfold countBullets at h2
    rw [h0, h1, h2]
    unfold groupCommentsBySection
    rw [groupFold_sum cs [] (by simp)]
    simp
  · intro original now cs e he hb
    unfold create_simple_reviewed_copy at he
    rcases List.mem_append.mp he with he1 | he1
    · rcases List.mem_append.mp he1 with he2 | he2
      · exact Or.inl he2
      · exfalso
        simp only [List.mem_cons, List.not_mem_nil, or_false] at he2
        rcases he2 with h | h | h | h | h <;>
          (rw [h] at hb; exact absurd hb (by simp [isBulletElem]))
    · rcases List.mem_flatten.mp he1 with ⟨l, hl, hel⟩
      rcases List.mem_map.mp hl with ⟨g, hg, hgl⟩
      rw [← hgl] at hel
      rcases List.mem_cons.mp hel with h | h
      · rw [h] at hb
        exact absurd hb (by simp [isBulletElem])
      · rcases List.mem_map.mp h with ⟨c, hc, hce⟩
        right
        refine ⟨c, ?_, hce.symm⟩
        rcases groupFold_mem cs [] g hg c hc with ⟨g', hg', _⟩ | hmem
        · simp at hg'
        · exact hmem

/-- Witness for the amended C7: the first bullet of the example
output comes from the first example comment. -/
theorem c7_amended_witness :
    DocElem.bulletPara "[AI Feedback] CRITICAL - High Risk: " "c1" ∈ ([] : List DocElem) ∨
    ∃ c ∈ c7exampleComments,
      DocElem.bulletPara "[AI Feedback] CRITICAL - High Risk: " "c1" = bulletFor c :=
  c7_amended_fallback.2.1 [] "2024-01-01 00:00" c7exampleComments
    (DocElem.bulletPara "[AI Feedback] CRITICAL - High Risk: " "c1")
    (by decide) (by decide)

/-- Claim C2 (evidence for the code bug): evaluating the
`save_with_comments` control-flow model shows (i) a failure while
opening the source document makes the `except` handler itself raise
`UnboundLocalError` on the unassigned `temp_docx`, so the error is not
reported as the `False` return value; (ii) a failure during the repack
loop returns `False` but leaves the partially written output archive
on disk, since the handler removes only the scratch directory and the
intermediate archive; (iii) other mid-pipeline failures and the
success path do clean up the scratch state. -/
theorem c2_failure_paths_eval :
    save_with_comments_run (some SaveOp.loadDoc)
      = (SaveOutcome.uncaughtException, ⟨false, false, false⟩) ∧
    save_with_comments_run (some SaveOp.repackArchive)
      = (SaveOutcome.returnedFalse, ⟨false, false, true⟩) ∧
    save_with_comments_run (some SaveOp.extractArchive)
      = (SaveOutcome.returnedFalse, ⟨false, false, false⟩) ∧
    save_with_comments_run (some SaveOp.writeCommentsXml)
      = (SaveOutcome.returnedFalse, ⟨false, false, false⟩) ∧
    save_with_comments_run none
      = (SaveOutcome.success, ⟨false, false, true⟩) :=
  ⟨rfl, rfl, rfl, rfl, rfl⟩

/-- A three-part package with no relationship manifest. -/
def c3package : PartsMap :=
  [("[Content_Types].xml", "<Types></Types>"), ("word/document.xml", "<doc/>")]

/-- Claim C3 counterexample: on a package whose relationship manifest
is missing, `_update_document_relationships` silently skips the
relationship edit (the `os.path.exists` guard) and
`save_with_comments` completes successfully, returning `True` and
producing an output package — it does not report the error outcome
the claim requires. -/
theorem c3_counterexample :
    dictGet c3package relsPath = none ∧
    dictGet (savePartsEdit c3package
      (buildComments [⟨0, "hello", "AI Feedback", "D"⟩])) relsPath = none ∧
    save_with_comments_run none = (SaveOutcome.success, ⟨false, false, true⟩) :=
  ⟨rfl, by decide, rfl⟩

/-- Claim C3 amended: when the relationship manifest is missing from
the unpacked package, the relationship edit is silently skipped —
injection still writes the comments part, reports success, and
produces an output package (with the comments part unreferenced by
any relationship); the scratch directory and intermediate archive are
removed as on any success path. -/
theorem updateRelsPart_none {ps : PartsMap} (h : dictGet ps relsPath = none) :
    updateRelsPart ps = ps := by
  unfold updateRelsPart
  rw [h]

theorem updateRelsPart_skip {ps : PartsMap} {r : String}
    (h : dictGet ps relsPath = some r) (hc : containsSub r "comments.xml" = true) :
    updateRelsPart ps = ps := by
  unfold updateRelsPart
  rw [h]
  exact if_pos hc

theorem updateRelsPart_edit {ps : PartsMap} {r : String}
    (h : dictGet ps relsPath = some r) (hc : containsSub r "comments.xml" = false) :
    updateRelsPart ps = dictInsert ps relsPath (updateRelsContent r) := by
  unfold updateRelsPart
  rw [h]
  exact if_neg (by rw [hc]; exact Bool.false_ne_true)

theorem updateTypesPart_none {ps : PartsMap} (h : dictGet ps ctPath = none) :
    updateTypesPart ps = ps := by
  unfold updateTypesPart
  rw [h]

theorem updateTypesPart_skip {ps : PartsMap} {c : String}
    (h : dictGet ps ctPath = some c) (hc : containsSub c "comments.xml" = true) :
    updateTypesPart ps = ps := by
  unfold updateTypesPart
  rw [h]
  exact if_pos hc

theorem updateTypesPart_edit {ps : PartsMap} {c : String}
    (h : dictGet ps ctPath = some c) (hc : containsSub c "comments.xml" = false) :
    updateTypesPart ps = dictInsert ps ctPath (updateTypesContent c) := by
  unfold updateTypesPart
  rw [h]
  exact if_neg (by rw [hc]; exact Bool.false_ne_true)

theorem c3_amended_missing_rels_skipped (ps : PartsMap) (cs : List StagedComment)
    (h : dictGet ps relsPath = none) :
    dictGet (savePartsEdit ps cs) relsPath = none ∧
    dictGet (savePartsEdit ps cs) commentsPath = some (fullCommentsXml cs) ∧
    save_with_comments_run none = (SaveOutcome.success, ⟨false, false, true⟩) := by
  have h1 : dictGet (writeCommentsPart ps cs) relsPath = none := by
    unfold writeCommentsPart
    rw [dictGet_dictInsert_ne _ _ (by decide : relsPath ≠ commentsPath)]
    exact h
  have h2 : dictGet (writeCommentsPart ps cs) commentsPath = some (fullCommentsXml cs) := by
    unfold writeCommentsPart
    exact dictGet_dictInsert_self _ _ _
  unfold savePartsEdit updateDocumentRelationships
  rw [updateRelsPart_none h1]
  rcases hc : dictGet (writeCommentsPart ps cs) ctPath with _ | c
  · rw [updateTypesPart_none hc]
    exact ⟨h1, h2, rfl⟩
  · by_cases hcc : containsSub c "comments.xml" = true
    · rw [updateTypesPart_skip hc hcc]
      exact ⟨h1, h2, rfl⟩
    · rw [updateTypesPart_edit hc (Bool.not_eq_true _ ▸ hcc)]
      refine ⟨?_, ?_, rfl⟩
      · rw [dictGet_dictInsert_ne _ _ (by decide : relsPath ≠ ctPath)]
        exact h1
      · rw [dictGet_dictInsert_ne _ _ (by decide : commentsPath ≠ ctPath)]
        exact h2

/-- Witness for the amended C3 at the concrete rels-less package. -/
theorem c3_amended_witness :
    dictGet (savePartsEdit c3package
      (buildComments [⟨0, "hello", "AI Feedback", "D"⟩])) relsPath = none ∧
    dictGet (savePartsEdit c3package
      (buildComments [⟨0, "hello", "AI Feedback", "D"⟩])) commentsPath
      = some (fullCommentsXml (buildComments [⟨0, "hello", "AI Feedback", "D"⟩])) ∧
    save_with_comments_run none = (SaveOutcome.success, ⟨false, false, true⟩) :=
  c3_amended_missing_rels_skipped c3package
    (buildComments [⟨0, "hello", "AI Feedback", "D"⟩]) (by decide)

theorem natToStrCore_chars :
    ∀ (fuel n : Nat) (acc : List Char), ∀ ch ∈ natToStrCore fuel n acc,
      ch ∈ acc ∨ ∃ d : Nat, d < 10 ∧ ch = digitChar d := by
  intro fuel
  induction fuel with
  | zero =>
    intro n acc ch hch
    exact Or.inl hch
  | succ fuel ih =>
    intro n acc ch hch
    unfold natToStrCore at hch
    by_cases hq : n / 10 = 0
    · rw [if_pos hq] at hch
      rcases List.mem_cons.mp hch with h | h
      · exact Or.inr ⟨n % 10, Nat.mod_lt n (by omega), h⟩
      · exact Or.inl h
    · rw [if_neg hq] at hch
      rcases ih (n / 10) (digitChar (n % 10) :: acc) ch hch with h | h
      · rcases List.mem_cons.mp h with h1 | h1
        · exact Or.inr ⟨n % 10, Nat.mod_lt n (by omega), h1⟩
        · exact Or.inl h1
      · exact Or.inr h

theorem natToStr_no_lt (n : Nat) : '<' ∉ (natToStr n).data := by
  intro hmem
  rcases natToStrCore_chars (n + 1) n [] '<' hmem with h | ⟨d, hd, he⟩
  · simp at h
  · interval_cases d <;> exact absurd he (by decide)

theorem buildComments_fold_ids (inputs : List AddInput) :
    ∀ (acc : List StagedComment) (k : Nat),
    ((inputs.foldl addCommentFold (acc, k)).1).map (fun c => c.id) =
      acc.map (fun c => c.id) ++ List.range' k inputs.length := by
  induction inputs with
  | nil =>
    intro acc k
    simp
  | cons i inputs ih =>
    intro acc k
    rw [List.foldl_cons]
    show ((inputs.foldl addCommentFold
      (acc ++ [⟨k, i.paragraph_index, i.text, i.author, i.date⟩], k + 1)).1).map
        (fun c => c.id) = _
    rw [ih _ (k + 1)]
    simp [List.range'_succ]

/-- Claim C6 support: the staged comments of a fresh document receive
the ids `1..N` in order. -/
theorem buildComments_ids (inputs : List AddInput) :
    (buildComments inputs).map (fun c => c.id) = List.range' 1 inputs.length := by
  unfold buildComments
  rw [buildComments_fold_ids inputs [] 1]
  simp

theorem buildComments_fold_mem (inputs : List AddInput) :
    ∀ (acc : List StagedComment) (k : Nat),
    ∀ c ∈ (inputs.foldl addCommentFold (acc, k)).1,
      c ∈ acc ∨ ∃ i ∈ inputs, c.text = i.text ∧ c.author = i.author ∧ c.date = i.date := by
  induction inputs with
  | nil =>
    intro acc k c hc
    exact Or.inl hc
  | cons i inputs ih =>
    intro acc k c hc
    rw [List.foldl_cons] at hc
    rcases ih _ (k + 1) c hc with h | ⟨i', hi', hp⟩
    · rcases List.mem_append.mp h with h1 | h1
      · exact Or.inl h1
      · right
        rw [List.mem_singleton.mp h1]
        exact ⟨i, List.mem_cons_self i inputs, rfl, rfl, rfl⟩
    · exact Or.inr ⟨i', List.mem_cons_of_mem i hi', hp⟩

/-- Character-list decomposition of a serialized comment element. -/
theorem createCommentXml_data (c : StagedComment) :
    (createCommentXml c).data =
      xmlChunkA.data ++ ((natToStr c.id).data ++ (xmlChunkB.data ++ (c.author.data ++
        (xmlChunkC.data ++ (c.date.data ++ (xmlChunkD.data ++ (c.text.data ++
          xmlChunkE.data))))))) := by
  unfold createCommentXml
  simp [String.data_append, List.append_assoc]

theorem fullCommentsXml_data (cs : List StagedComment) :
    ∀ a : String,
    (cs.foldl (fun acc c => acc ++ createCommentXml c) a).data =
      a.data ++ (cs.map (fun c => (createCommentXml c).data)).flatten := by
  induction cs with
  | nil =>
    intro a
    simp
  | cons c cs ih =>
    intro a
    rw [List.foldl_cons, ih (a ++ createCommentXml c)]
    rw [String.data_append]
    simp [List.append_assoc]

theorem occ_tag_const1 (R : List Char) :
    occ commentTag.data (xmlChunkA.data ++ R) = 1 + occ commentTag.data R := by
  rw [occ_append_of_suffixClash R (by decide)]
  rw [show occ commentTag.data xmlChunkA.data = 1 from by decide]

theorem occ_tag_clean {s : String} (hs : '<' ∉ s.data) (R : List Char) :
    occ commentTag.data (s.data ++ R) = occ commentTag.data R :=
  occ_append_of_head_notMem (by rfl) hs

theorem occ_tag_constB (R : List Char) :
    occ commentTag.data (xmlChunkB.data ++ R) = occ commentTag.data R := by
  rw [occ_append_of_suffixClash R (by decide)]
  rw [show occ commentTag.data xmlChunkB.data = 0 from by decide]
  omega

theorem occ_tag_constC (R : List Char) :
    occ commentTag.data (xmlChunkC.data ++ R) = occ commentTag.data R := by
  rw [occ_append_of_suffixClash R (by decide)]
  rw [show occ commentTag.data xmlChunkC.data = 0 from by decide]
  omega

theorem occ_tag_constD (R : List Char) :
    occ commentTag.data (xmlChunkD.data ++ R) = occ commentTag.data R := by
  rw [occ_append_of_suffixClash R (by decide)]
  rw [show occ commentTag.data xmlChunkD.data = 0 from by decide]
  omega

theorem occ_tag_constE (R : List Char) :
    occ commentTag.data (xmlChunkE.data ++ R) = occ commentTag.data R := by
  rw [occ_append_of_suffixClash R (by decide)]
  rw [show occ commentTag.data xmlChunkE.data = 0 from by decide]
  omega

theorem occ_tag_header (R : List Char) :
    occ commentTag.data (commentsHeader.data ++ R) = occ commentTag.data R := by
  rw [occ_append_of_suffixClash R (by decide)]
  rw [show occ commentTag.data commentsHeader.data = 0 from by decide]
  omega

/-- One serialized comment element with markup-free author, date and
text contributes exactly one comment start tag, whatever follows. -/
theorem occ_tag_chunk (c : StagedComment) (R : List Char)
    (hauthor : '<' ∉ c.author.data) (hdate : '<' ∉ c.date.data)
    (htext : '<' ∉ c.text.data) :
    occ commentTag.data ((createCommentXml c).data ++ R) = 1 + occ commentTag.data R := by
  rw [createCommentXml_data]
  rw [List.append_assoc, List.append_assoc, List.append_assoc, List.append_assoc,
    List.append_assoc, List.append_assoc, List.append_assoc, List.append_assoc]
  rw [occ_tag_const1]
  rw [occ_tag_clean (natToStr_no_lt c.id)]
  rw [occ_tag_constB]
  rw [occ_tag_clean hauthor]
  rw [occ_tag_constC]
  rw [occ_tag_clean hdate]
  rw [occ_tag_constD]
  rw [occ_tag_clean htext]
  rw [occ_tag_constE]

theorem occ_tag_chunks (cs : List StagedComment)
    (hclean : ∀ c ∈ cs, '<' ∉ c.author.data ∧ '<' ∉ c.date.data ∧ '<' ∉ c.text.data) :
    occ commentTag.data
      ((cs.map (fun c => (createCommentXml c).data)).flatten ++ "</w:comments>".data) =
      cs.length := by
  induction cs with
  | nil =>
    rw [List.map_nil, List.flatten_nil, List.nil_append]
    decide
  | cons c cs ih =>
    rw [List.map_cons, List.flatten_cons, List.append_assoc]
    have hc := hclean c (List.mem_cons_self c cs)
    rw [occ_tag_chunk c _ hc.1 hc.2.1 hc.2.2]
    rw [ih (fun c' hc' => hclean c' (List.mem_cons_of_mem c hc'))]
    rw [List.length_cons]
    omega

/-- The comments part built for `N` markup-free staged comments
contains exactly `N` comment start tags. -/
theorem occ_tag_fullCommentsXml (cs : List StagedComment)
    (hclean : ∀ c ∈ cs, '<' ∉ c.author.data ∧ '<' ∉ c.date.data ∧ '<' ∉ c.text.data) :
    occ commentTag.data (fullCommentsXml cs).data = cs.length := by
  unfold fullCommentsXml
  rw [String.data_append, fullCommentsXml_data cs commentsHeader, List.append_assoc]
  rw [occ_tag_header]
  exact occ_tag_chunks cs hclean

theorem occ_append_of_bhead_notMem {m a b : List Char} {c : Char}
    (hb : b.head? = some c) (hc : c ∉ m) :
    occ m (a ++ b) = occ m a + occ m b := by
  apply occ_append_of_no_straddle
  intro s hs hne hlen hpre
  rw [List.isPrefixOf_iff_prefix] at hpre
  have hsp : s <+: m :=
    List.prefix_of_prefix_length_le (List.prefix_append s b) hpre (Nat.le_of_lt hlen)
  obtain ⟨m2, hm2⟩ := hsp
  have hm2ne : m2 ≠ [] := by
    intro h0
    rw [h0, List.append_nil] at hm2
    rw [hm2] at hlen
    omega
  have hmb : m2 <+: b := by
    rw [← hm2] at hpre
    exact (List.prefix_append_right_inj s).mp hpre
  rcases m2 with _ | ⟨d, m3⟩
  · exact hm2ne rfl
  · obtain ⟨t, ht⟩ := hmb
    have hd : d = c := by
      have := congrArg List.head? ht
      rw [hb] at this
      simpa using this
    apply hc
    rw [← hm2, hd]
    exact List.mem_append_right s (List.mem_cons_self c m3)

theorem occ_zero_of_not_contains {r : String} {m : List Char}
    (hsub : ("comments.xml").data <:+: m)
    (h : containsSub r "comments.xml" = false) : occ m r.data = 0 := by
  apply occ_eq_zero_of_not_infix
  intro hinf
  have hx : ("comments.xml").data <:+: r.data := hsub.trans hinf
  rw [containsSub] at h
  exact (of_decide_eq_false h) hx

/-- Editing a comments-free relationship manifest with exactly one
closing tag yields exactly one comments relationship entry, and the
result mentions `comments.xml` (so a second edit is skipped). -/
theorem updateRelsContent_count (rels : String)
    (h1 : containsSub rels "comments.xml" = false)
    (h2 : occ "</Relationships>".data rels.data = 1) :
    occ relEntryNeedle.data (updateRelsContent rels).data = 1 ∧
    containsSub (updateRelsContent rels) "comments.xml" = true := by
  have hedit : updateRelsContent rels =
      pyReplace rels "</Relationships>" (newRelationshipStr ++ "</Relationships>") := by
    unfold updateRelsContent
    rw [if_neg (by rw [h1]; exact Bool.false_ne_true)]
  obtain ⟨p, s, hdec, hp0, hs0, hrepl⟩ :=
    replaceList_decomp (r := (newRelationshipStr ++ "</Relationships>").data)
      (show "</Relationships>".data ≠ [] from by decide) h2
  have hdata : (updateRelsContent rels).data =
      p ++ ((newRelationshipStr ++ "</Relationships>").data ++ s) := by
    rw [hedit]
    show replaceList _ _ rels.data = _
    rw [hrepl, List.append_assoc]
  have hocc0 : occ relEntryNeedle.data rels.data = 0 :=
    occ_zero_of_not_contains (by decide) h1
  have hoccp : occ relEntryNeedle.data p = 0 := by
    apply occ_prefix_eq_zero (t := "</Relationships>".data ++ s)
    rw [← List.append_assoc, ← hdec]
    exact hocc0
  have hoccs : occ relEntryNeedle.data s = 0 := by
    apply occ_suffix_eq_zero (p := p ++ "</Relationships>".data)
    rw [← hdec]
    exact hocc0
  constructor
  · rw [hdata]
    rw [occ_append_of_bhead_notMem
      (c := '<')
      (by rw [List.head?_append_of_ne_nil _ (by decide)]; decide)
      (by decide)]
    rw [hoccp]
    rw [occ_append_of_suffixClash s (by decide)]
    rw [show occ relEntryNeedle.data (newRelationshipStr ++ "</Relationships>").data = 1
      from by decide]
    rw [hoccs]
  · apply decide_eq_true
    show ("comments.xml").data <:+: (updateRelsContent rels).data
    rw [hdata, ← List.append_assoc]
    exact List.IsInfix.trans (by decide) (List.infix_append p _ s)

/-- The analogous count for the content-type manifest. -/
theorem updateTypesContent_count (c : String)
    (h1 : containsSub c "comments.xml" = false)
    (h2 : occ "</Types>".data c.data = 1) :
    occ ctEntryNeedle.data (updateTypesContent c).data = 1 ∧
    containsSub (updateTypesContent c) "comments.xml" = true := by
  have hedit : updateTypesContent c =
      pyReplace c "</Types>" (newOverrideStr ++ "</Types>") := by
    unfold updateTypesContent
    rw [if_neg (by rw [h1]; exact Bool.false_ne_true)]
  obtain ⟨p, s, hdec, hp0, hs0, hrepl⟩ :=
    replaceList_decomp (r := (newOverrideStr ++ "</Types>").data)
      (show "</Types>".data ≠ [] from by decide) h2
  have hdata : (updateTypesContent c).data =
      p ++ ((newOverrideStr ++ "</Types>").data ++ s) := by
    rw [hedit]
    show replaceList _ _ c.data = _
    rw [hrepl, List.append_assoc]
  have hocc0 : occ ctEntryNeedle.data c.data = 0 :=
    occ_zero_of_not_contains (by decide) h1
  have hoccp : occ ctEntryNeedle.data p = 0 := by
    apply occ_prefix_eq_zero (t := "</Types>".data ++ s)
    rw [← List.append_assoc, ← hdec]
    exact hocc0
  have hoccs : occ ctEntryNeedle.data s = 0 := by
    apply occ_suffix_eq_zero (p := p ++ "</Types>".data)
    rw [← hdec]
    exact hocc0
  constructor
  · rw [hdata]
    rw [occ_append_of_bhead_notMem
      (c := '<')
      (by rw [List.head?_append_of_ne_nil _ (by decide)]; decide)
      (by decide)]
    rw [hoccp]
    rw [occ_append_of_suffixClash s (by decide)]
    rw [show occ ctEntryNeedle.data (newOverrideStr ++ "</Types>").data = 1
      from by decide]
    rw [hoccs]
  · apply decide_eq_true
    show ("comments.xml").data <:+: (updateTypesContent c).data
    rw [hdata, ← List.append_assoc]
    exact List.IsInfix.trans (by decide) (List.infix_append p _ s)

/-- Claim C6 counterexample: a single comment whose text itself
contains the unescaped markup `<w:comment ` (the source interpolates
the text into the XML with no escaping) yields a comments part with
two comment start tags although `N = 1`. -/
theorem c6_counterexample :
    (buildComments
      [⟨0, "</w:t></w:r></w:p></w:comment>\n        <w:comment w:id=\"99\" bogus",
        "AI Feedback", "2024-01-01T00:00:00.000000Z"⟩]).length = 1 ∧
    occ commentTag.data (fullCommentsXml (buildComments
      [⟨0, "</w:t></w:r></w:p></w:comment>\n        <w:comment w:id=\"99\" bogus",
        "AI Feedback", "2024-01-01T00:00:00.000000Z"⟩])).data = 2 :=
  ⟨rfl, by decide⟩

/-- Claim C6 amended: for a valid package (both manifests present,
neither mentioning `comments.xml`, each with exactly one closing tag)
and comments whose text, author and timestamp contain no `<`
character, injection stages ids `1..N` in increasing order, writes a
comments part with exactly `N` comment start tags, and gives each
manifest exactly one comments entry; re-running injection on the
output package (with any fresh comment list) leaves both manifest
entries unduplicated.  Without the no-markup condition the comment
count can exceed `N`, since the XML is built by interpolation without
escaping. -/
theorem c6_amended_roundtrip (ps : PartsMap) (inputs : List AddInput)
    (relsC ctC : String)
    (hr : dictGet ps relsPath = some relsC)
    (hct : dictGet ps ctPath = some ctC)
    (hr1 : containsSub relsC "comments.xml" = false)
    (hr2 : occ "</Relationships>".data relsC.data = 1)
    (hc1 : containsSub ctC "comments.xml" = false)
    (hc2 : occ "</Types>".data ctC.data = 1)
    (hclean : ∀ i ∈ inputs, '<' ∉ i.text.data ∧ '<' ∉ i.author.data ∧ '<' ∉ i.date.data) :
    (buildComments inputs).map (fun c => c.id) = List.range' 1 inputs.length ∧
    dictGet (savePartsEdit ps (buildComments inputs)) commentsPath
      = some (fullCommentsXml (buildComments inputs)) ∧
    occ commentTag.data (fullCommentsXml (buildComments inputs)).data = inputs.length ∧
    (∃ r', dictGet (savePartsEdit ps (buildComments inputs)) relsPath = some r' ∧
      occ relEntryNeedle.data r'.data = 1 ∧
      ∀ cs2 : List StagedComment,
        dictGet (savePartsEdit (savePartsEdit ps (buildComments inputs)) cs2) relsPath
          = some r') ∧
    (∃ t', dictGet (savePartsEdit ps (buildComments inputs)) ctPath = some t' ∧
      occ ctEntryNeedle.data t'.data = 1 ∧
      ∀ cs2 : List StagedComment,
        dictGet (savePartsEdit (savePartsEdit ps (buildComments inputs)) cs2) ctPath
          = some t') := by
  have hcsclean : ∀ c ∈ buildComments inputs,
      '<' ∉ c.author.data ∧ '<' ∉ c.date.data ∧ '<' ∉ c.text.data := by
    intro c hc
    rcases buildComments_fold_mem inputs [] 1 c hc with h | ⟨i, hi, ht, ha, hd⟩
    · simp at h
    · have := hclean i hi
      rw [ht, ha, hd]
      exact ⟨this.2.1, this.2.2, this.1⟩
  have hrel := updateRelsContent_count relsC hr1 hr2
  have hty := updateTypesContent_count ctC hc1 hc2
  have hne1 : relsPath ≠ commentsPath := by decide
  have hne2 : ctPath ≠ commentsPath := by decide
  have hne3 : ctPath ≠ relsPath := by decide
  have hne4 : relsPath ≠ ctPath := by decide
  have hne5 : commentsPath ≠ relsPath := by decide
  have hne6 : commentsPath ≠ ctPath := by decide
  -- the three-stage edit of the parts map
  have g1 : dictGet (writeCommentsPart ps (buildComments inputs)) relsPath = some relsC := by
    unfold writeCommentsPart
    rw [dictGet_dictInsert_ne _ _ hne1]
    exact hr
  have g2 : dictGet (writeCommentsPart ps (buildComments inputs)) ctPath = some ctC := by
    unfold writeCommentsPart
    rw [dictGet_dictInsert_ne _ _ hne2]
    exact hct
  have g3 : dictGet (writeCommentsPart ps (buildComments inputs)) commentsPath
      = some (fullCommentsXml (buildComments inputs)) := by
    unfold writeCommentsPart
    exact dictGet_dictInsert_self _ _ _
  have e1 : updateRelsPart (writeCommentsPart ps (buildComments inputs)) =
      dictInsert (writeCommentsPart ps (buildComments inputs)) relsPath
        (updateRelsContent relsC) := updateRelsPart_edit g1 hr1
  have g4 : dictGet (updateRelsPart (writeCommentsPart ps (buildComments inputs))) ctPath
      = some ctC := by
    rw [e1, dictGet_dictInsert_ne _ _ hne3]
    exact g2
  have g5 : dictGet (updateRelsPart (writeCommentsPart ps (buildComments inputs))) relsPath
      = some (updateRelsContent relsC) := by
    rw [e1]
    exact dictGet_dictInsert_self _ _ _
  have g6 : dictGet (updateRelsPart (writeCommentsPart ps (buildComments inputs))) commentsPath
      = some (fullCommentsXml (buildComments inputs)) := by
    rw [e1, dictGet_dictInsert_ne _ _ hne5]
    exact g3
  have e2 : updateTypesPart (updateRelsPart (writeCommentsPart ps (buildComments inputs))) =
      dictInsert (updateRelsPart (writeCommentsPart ps (buildComments inputs))) ctPath
        (updateTypesContent ctC) := updateTypesPart_edit g4 hc1
  have hout : savePartsEdit ps (buildComments inputs) =
      dictInsert (updateRelsPart (writeCommentsPart ps (buildComments inputs))) ctPath
        (updateTypesContent ctC) := by
    unfold savePartsEdit updateDocumentRelationships
    exact e2
  have g7 : dictGet (savePartsEdit ps (buildComments inputs)) relsPath
      = some (updateRelsContent relsC) := by
    rw [hout, dictGet_dictInsert_ne _ _ hne4]
    exact g5
  have g8 : dictGet (savePartsEdit ps (buildComments inputs)) ctPath
      = some (updateTypesContent ctC) := by
    rw [hout]
    exact dictGet_dictInsert_self _ _ _
  have g9 : dictGet (savePartsEdit ps (buildComments inputs)) commentsPath
      = some (fullCommentsXml (buildComments inputs)) := by
    rw [hout, dictGet_dictInsert_ne _ _ hne6]
    exact g6
  -- a second injection pass leaves both manifests untouched
  have hrerun : ∀ cs2 : List StagedComment,
      dictGet (savePartsEdit (savePartsEdit ps (buildComments inputs)) cs2) relsPath
        = some (updateRelsContent relsC) ∧
      dictGet (savePartsEdit (savePartsEdit ps (buildComments inputs)) cs2) ctPath
        = some (updateTypesContent ctC) := by
    intro cs2
    have k1 : dictGet (writeCommentsPart (savePartsEdit ps (buildComments inputs)) cs2)
        relsPath = some (updateRelsContent relsC) := by
      unfold writeCommentsPart
      rw [dictGet_dictInsert_ne _ _ hne1]
      exact g7
    have k2 : dictGet (writeCommentsPart (savePartsEdit ps (buildComments inputs)) cs2)
        ctPath = some (updateTypesContent ctC) := by
      unfold writeCommentsPart
      rw [dictGet_dictInsert_ne _ _ hne2]
      exact g8
    have k3 : updateRelsPart (writeCommentsPart (savePartsEdit ps (buildComments inputs)) cs2)
        = writeCommentsPart (savePartsEdit ps (buildComments inputs)) cs2 :=
      updateRelsPart_skip k1 hrel.2
    have k4 : updateTypesPart (writeCommentsPart (savePartsEdit ps (buildComments inputs)) cs2)
        = writeCommentsPart (savePartsEdit ps (buildComments inputs)) cs2 :=
      updateTypesPart_skip k2 hty.2
    constructor
    · show dictGet (updateTypesPart (updateRelsPart _)) relsPath = _
      rw [k3, k4]
      exact k1
    · show dictGet (updateTypesPart (updateRelsPart _)) ctPath = _
      rw [k3, k4]
      exact k2
  have hlen : (buildComments inputs).length = inputs.length := by
    have hmapeq := congrArg List.length (buildComments_ids inputs)
    simpa using hmapeq
  refine ⟨buildComments_ids inputs, g9,
    hlen ▸ occ_tag_fullCommentsXml (buildComments inputs) hcsclean,
    ⟨updateRelsContent relsC, g7, hrel.1, fun cs2 => (hrerun cs2).1⟩,
    ⟨updateTypesContent ctC, g8, hty.1, fun cs2 => (hrerun cs2).2⟩⟩

/-- A minimal valid package for the C6 witness. -/
def c6package : PartsMap :=
  [("word/_rels/document.xml.rels",
    "<?xml version=\"1.0\"?><Relationships><Relationship Id=\"rId1\" Type=\"http://x\" Target=\"document.xml\"/></Relationships>"),
   ("[Content_Types].xml",
    "<?xml version=\"1.0\"?><Types><Default Extension=\"xml\" ContentType=\"application/xml\"/></Types>"),
   ("word/document.xml", "<w:document/>")]

/-- Witness for the amended C6 at the concrete minimal package with
one clean comment. -/
theorem c6_amended_witness :
    (buildComments [⟨0, "hello", "AI Feedback", "2024-01-01T00:00:00.000000Z"⟩]).map
      (fun c => c.id) = List.range' 1 1 ∧
    dictGet (savePartsEdit c6package
      (buildComments [⟨0, "hello", "AI Feedback", "2024-01-01T00:00:00.000000Z"⟩]))
      commentsPath = some (fullCommentsXml
        (buildComments [⟨0, "hello", "AI Feedback", "2024-01-01T00:00:00.000000Z"⟩])) ∧
    occ commentTag.data (fullCommentsXml
      (buildComments [⟨0, "hello", "AI Feedback", "2024-01-01T00:00:00.000000Z"⟩])).data = 1 ∧
    (∃ r', dictGet (savePartsEdit c6package
        (buildComments [⟨0, "hello", "AI Feedback", "2024-01-01T00:00:00.000000Z"⟩]))
        relsPath = some r' ∧
      occ relEntryNeedle.data r'.data = 1 ∧
      ∀ cs2 : List StagedComment,
        dictGet (savePartsEdit (savePartsEdit c6package
          (buildComments [⟨0, "hello", "AI Feedback", "2024-01-01T00:00:00.000000Z"⟩])) cs2)
          relsPath = some r') ∧
    (∃ t', dictGet (savePartsEdit c6package
        (buildComments [⟨0, "hello", "AI Feedback", "2024-01-01T00:00:00.000000Z"⟩]))
        ctPath = some t' ∧
      occ ctEntryNeedle.data t'.data = 1 ∧
      ∀ cs2 : List StagedComment,
        dictGet (savePartsEdit (savePartsEdit c6package
          (buildComments [⟨0, "hello", "AI Feedback", "2024-01-01T00:00:00.000000Z"⟩])) cs2)
          ctPath = some t') := by
  have h := c6_amended_roundtrip c6package
    [⟨0, "hello", "AI Feedback", "2024-01-01T00:00:00.000000Z"⟩]
    "<?xml version=\"1.0\"?><Relationships><Relationship Id=\"rId1\" Type=\"http://x\" Target=\"document.xml\"/></Relationships>"
    "<?xml version=\"1.0\"?><Types><Default Extension=\"xml\" ContentType=\"application/xml\"/></Types>"
    rfl rfl (by decide) (by decide) (by decide) (by decide) (by decide)
  exact h

theorem createCommentXml_congr {c d : StagedComment}
    (hid : c.id = d.id) (ht : c.text = d.text) (ha : c.author = d.author)
    (hd : c.date = d.date) : createCommentXml c = createCommentXml d := by
  unfold createCommentXml
  rw [hid, ht, ha, hd]

theorem map_createCommentXml_of_proj :
    ∀ {cs1 cs2 : List StagedComment},
    cs1.map (fun c => (c.id, c.text, c.author, c.date)) =
      cs2.map (fun c => (c.id, c.text, c.author, c.date)) →
    cs1.map createCommentXml = cs2.map createCommentXml := by
  intro cs1
  induction cs1 with
  | nil =>
    intro cs2 h
    cases cs2 with
    | nil => rfl
    | cons d ds => simp at h
  | cons c cs ih =>
    intro cs2 h
    cases cs2 with
    | nil => simp at h
    | cons d ds =>
      rw [List.map_cons, List.map_cons] at h ⊢
      have h1 := List.head_eq_of_cons_eq h
      have h2 := List.tail_eq_of_cons_eq h
      rw [Prod.mk.injEq, Prod.mk.injEq, Prod.mk.injEq] at h1
      rw [createCommentXml_congr h1.1 h1.2.1 h1.2.2.1 h1.2.2.2, ih h2]

theorem fullCommentsXml_congr {cs1 cs2 : List StagedComment}
    (hmap : cs1.map createCommentXml = cs2.map createCommentXml) :
    fullCommentsXml cs1 = fullCommentsXml cs2 := by
  apply String.ext
  unfold fullCommentsXml
  rw [String.data_append, String.data_append,
    fullCommentsXml_data cs1 commentsHeader, fullCommentsXml_data cs2 commentsHeader]
  have hdm : cs1.map (fun c => (createCommentXml c).data) =
      cs2.map (fun c => (createCommentXml c).data) := by
    have hc := congrArg (List.map String.data) hmap
    simpa [List.map_map] using hc
  rw [hdm]

theorem buildComments_fold_proj (inputs : List AddInput) :
    ∀ (acc : List StagedComment) (k : Nat),
    ((inputs.foldl addCommentFold (acc, k)).1).map
        (fun c => (c.id, c.text, c.author, c.date)) =
      acc.map (fun c => (c.id, c.text, c.author, c.date)) ++
        ((List.range' k inputs.length).zip
          (inputs.map (fun i => (i.text, i.author, i.date)))).map
            (fun p => (p.1, p.2.1, p.2.2.1, p.2.2.2)) := by
  induction inputs with
  | nil =>
    intro acc k
    simp
  | cons i inputs ih =>
    intro acc k
    rw [List.foldl_cons]
    show ((inputs.foldl addCommentFold
      (acc ++ [⟨k, i.paragraph_index, i.text, i.author, i.date⟩], k + 1)).1).map _ = _
    rw [ih _ (k + 1)]
    simp [List.range'_succ]

/-- Claim C10: comment lists that differ only in their target
paragraph index values (which may be negative or out of range)
produce byte-identical comments-part XML and identical part-map
edits: the index is staged by `add_comment` but never serialized. -/
theorem c10_index_independence (ps : PartsMap) (in1 in2 : List AddInput)
    (h : in1.map (fun i => (i.text, i.author, i.date)) =
         in2.map (fun i => (i.text, i.author, i.date))) :
    fullCommentsXml (buildComments in1) = fullCommentsXml (buildComments in2) ∧
    savePartsEdit ps (buildComments in1) = savePartsEdit ps (buildComments in2) := by
  have hlen : in1.length = in2.length := by
    have hc := congrArg List.length h
    simpa using hc
  have hproj : (buildComments in1).map (fun c => (c.id, c.text, c.author, c.date)) =
      (buildComments in2).map (fun c => (c.id, c.text, c.author, c.date)) := by
    unfold buildComments
    rw [buildComments_fold_proj in1 [] 1, buildComments_fold_proj in2 [] 1, h, hlen]
  have hxml := fullCommentsXml_congr (map_createCommentXml_of_proj hproj)
  refine ⟨hxml, ?_⟩
  unfold savePartsEdit writeCommentsPart
  rw [hxml]

/-- Witness for C10: one comment anchored at paragraph 5 versus the
same comment anchored at paragraph -3. -/
theorem c10_witness :
    fullCommentsXml (buildComments [⟨5, "t", "a", "d"⟩]) =
      fullCommentsXml (buildComments [⟨-3, "t", "a", "d"⟩]) ∧
    savePartsEdit [] (buildComments [⟨5, "t", "a", "d"⟩]) =
      savePartsEdit [] (buildComments [⟨-3, "t", "a", "d"⟩]) :=
  c10_index_independence [] [⟨5, "t", "a", "d"⟩] [⟨-3, "t", "a", "d"⟩] (by decide)

end CTReview
